import Mathlib

/-!
# Verification of the letter-ocean particle core (word-bag-soul-trap)

Shallow embedding of the particle-simulation core of the repository:
the quadtree spatial index, the letter-particle force pass and
integrator, and the word-formation recruitment / dissolution protocol.

The embedding follows the current main implementation (the sketch file
that defines `Rectangle`, `Quadtree`, `Letter.applyNeighborForces`,
`Letter.update`, `WordFormation`, and `formWord`).  Where the legacy
variant (the older `Letter.repel` without a quadtree) differs and a
claim refers to it, the legacy computation is embedded separately and
clearly marked.

Numeric model: the JavaScript code computes with IEEE-754 doubles; the
embedding uses exact arithmetic — `ℚ` for all state that the code only
ever combines with field operations and comparisons, and `ℝ` (with
`Real.sqrt` mirroring `Math.sqrt` / p5 `mag`) for derived geometric
quantities.  All constants of the source are exact decimals, hence
rationals.
-/

namespace WordBag

/-- 2-D vector, mirroring the p5 vectors used for `pos`, `vel`, `acc`. -/
structure V2 where
  x : ℚ
  y : ℚ
deriving DecidableEq, Repr

/-- Component-wise sum (p5 `add`). -/
def V2.add (a b : V2) : V2 := ⟨a.x + b.x, a.y + b.y⟩

/-- Component-wise difference (p5 `sub`). -/
def V2.sub (a b : V2) : V2 := ⟨a.x - b.x, a.y - b.y⟩

/-- Scalar multiple (p5 `mult`). -/
def V2.scale (q : ℚ) (a : V2) : V2 := ⟨q * a.x, q * a.y⟩

/-- Squared magnitude (p5 `magSq`). -/
def V2.magSq (a : V2) : ℚ := a.x * a.x + a.y * a.y

/-- Squared distance between two points. -/
def V2.distSq (a b : V2) : ℚ := (a.sub b).magSq

/-- Euclidean magnitude, mirroring p5 `mag` (`Math.sqrt` on the squared
magnitude). -/
noncomputable def V2.mag (a : V2) : ℝ := Real.sqrt ((a.magSq : ℚ) : ℝ)

/-- Euclidean distance, mirroring `p5.Vector.dist`. -/
noncomputable def V2.dist (a b : V2) : ℝ := (a.sub b).mag

/-! ## Quadtree configuration (source constants) -/

/-- `QUADTREE_CAPACITY = 8` — max items per node before subdivision. -/
def QUADTREE_CAPACITY : ℕ := 8

/-! ## Spatial index: `Rectangle` and `Quadtree`

The quadtree stores letter particles; the index only ever reads their
positions, so stored entries are modelled as a position plus a numeric
identity standing for JavaScript object identity. -/

/-- An entry stored in the quadtree: object identity plus the position
fields the index reads (`point.pos.x`, `point.pos.y`). -/
structure QPoint where
  idx : ℕ
  px : ℚ
  py : ℚ
deriving DecidableEq, Repr

/-- `Rectangle(x, y, w, h)` — centre `(x, y)`, half-width `w`,
half-height `h`. -/
structure Rectangle where
  x : ℚ
  y : ℚ
  w : ℚ
  h : ℚ
deriving DecidableEq, Repr

/-- `Rectangle.contains(point)`: inclusive lower bound, exclusive upper
bound on both axes. -/
def Rectangle.contains (r : Rectangle) (p : QPoint) : Prop :=
  r.x - r.w ≤ p.px ∧ p.px < r.x + r.w ∧ r.y - r.h ≤ p.py ∧ p.py < r.y + r.h

instance (r : Rectangle) (p : QPoint) : Decidable (r.contains p) := by
  unfold Rectangle.contains
  infer_instance

/-- `Rectangle.intersects(range)`: true unless the two boxes are
strictly separated on some axis. -/
def Rectangle.intersects (r : Rectangle) (range : Rectangle) : Prop :=
  ¬ (range.x - range.w > r.x + r.w ∨ range.x + range.w < r.x - r.w ∨
     range.y - range.h > r.y + r.h ∨ range.y + range.h < r.y - r.h)

instance (r range : Rectangle) : Decidable (r.intersects range) := by
  unfold Rectangle.intersects
  infer_instance

/-- North-east child region built by `subdivide()`. -/
def Rectangle.neRect (b : Rectangle) : Rectangle :=
  ⟨b.x + b.w / 2, b.y - b.h / 2, b.w / 2, b.h / 2⟩

/-- North-west child region built by `subdivide()`. -/
def Rectangle.nwRect (b : Rectangle) : Rectangle :=
  ⟨b.x - b.w / 2, b.y - b.h / 2, b.w / 2, b.h / 2⟩

/-- South-east child region built by `subdivide()`. -/
def Rectangle.seRect (b : Rectangle) : Rectangle :=
  ⟨b.x + b.w / 2, b.y + b.h / 2, b.w / 2, b.h / 2⟩

/-- South-west child region built by `subdivide()`. -/
def Rectangle.swRect (b : Rectangle) : Rectangle :=
  ⟨b.x - b.w / 2, b.y + b.h / 2, b.w / 2, b.h / 2⟩

/-- A quadtree node: `leaf` is a node with `divided = false` (children
null), `node` is a node with `divided = true` and its four children.
Both carry the `points` array (emptied on subdivision, as in the
source). -/
inductive Quadtree where
  | leaf (boundary : Rectangle) (points : List QPoint)
  | node (boundary : Rectangle) (points : List QPoint)
      (ne nw se sw : Quadtree)
deriving DecidableEq, Repr

/-- The node's `boundary` field. -/
def Quadtree.boundary : Quadtree → Rectangle
  | .leaf b _ => b
  | .node b _ _ _ _ _ => b

/-- The four child quadtrees of a node, as a bundle. -/
structure Children where
  ne : Quadtree
  nw : Quadtree
  se : Quadtree
  sw : Quadtree
deriving DecidableEq, Repr

/-- `subdivide()`: the four fresh child quadtrees of a boundary. -/
def Quadtree.subdivide (b : Rectangle) : Children :=
  ⟨.leaf b.neRect [], .leaf b.nwRect [], .leaf b.seRect [], .leaf b.swRect []⟩

/-- The short-circuit insertion cascade
`ne.insert(p) || nw.insert(p) || se.insert(p) || sw.insert(p)`,
parametrised by the single-node insert `ins` (the recursive call one
fuel level down).  `none` propagates fuel exhaustion. -/
def insertChildren (ins : Quadtree → QPoint → Option (Quadtree × Bool))
    (c : Children) (p : QPoint) : Option (Children × Bool) :=
  match ins c.ne p with
  | none => none
  | some (ne', true) => some (⟨ne', c.nw, c.se, c.sw⟩, true)
  | some (ne', false) =>
    match ins c.nw p with
    | none => none
    | some (nw', true) => some (⟨ne', nw', c.se, c.sw⟩, true)
    | some (nw', false) =>
      match ins c.se p with
      | none => none
      | some (se', true) => some (⟨ne', nw', se', c.sw⟩, true)
      | some (se', false) =>
        match ins c.sw p with
        | none => none
        | some (sw', bl) => some (⟨ne', nw', se', sw'⟩, bl)

/-- The re-insertion loop run on subdivision: each existing point is
pushed through the child cascade, its boolean result discarded. -/
def reinsertAll (ins : Quadtree → QPoint → Option (Quadtree × Bool)) :
    List QPoint → Children → Option Children
  | [], c => some c
  | p :: ps, c =>
    match insertChildren ins c p with
    | none => none
    | some (c', _) => reinsertAll ins ps c'

/-- `Quadtree.insert(point)`, with explicit recursion fuel: `none`
means the recursion depth budget ran out before the call returned
(the JavaScript recursion has no such bound; see the coincident-point
divergence lemma below). -/
def Quadtree.insert : ℕ → Quadtree → QPoint → Option (Quadtree × Bool)
  | 0, _, _ => none
  | fuel + 1, .leaf b pts, p =>
    if b.contains p then
      if pts.length < QUADTREE_CAPACITY then
        some (.leaf b (pts ++ [p]), true)
      else
        match reinsertAll (Quadtree.insert fuel) pts (Quadtree.subdivide b) with
        | none => none
        | some c =>
          match insertChildren (Quadtree.insert fuel) c p with
          | none => none
          | some (c', bl) =>
            some (Quadtree.node b [] c'.ne c'.nw c'.se c'.sw, bl)
    else some (.leaf b pts, false)
  | fuel + 1, .node b pts ne nw se sw, p =>
    if b.contains p then
      match insertChildren (Quadtree.insert fuel) ⟨ne, nw, se, sw⟩ p with
      | none => none
      | some (c', bl) =>
        some (Quadtree.node b pts c'.ne c'.nw c'.se c'.sw, bl)
    else some (.node b pts ne nw se sw, false)

/-- `Quadtree.query(range)`: prune on `boundary.intersects(range)`,
keep the node's own points that the range contains, then recurse into
the four children.  The accumulator threading of the source is the
left-to-right concatenation below. -/
def Quadtree.query : Quadtree → Rectangle → List QPoint
  | .leaf b pts, range =>
    if b.intersects range then pts.filter (fun p => decide (range.contains p))
    else []
  | .node b pts ne nw se sw, range =>
    if b.intersects range then
      pts.filter (fun p => decide (range.contains p)) ++
        ne.query range ++ nw.query range ++ se.query range ++ sw.query range
    else []

/-- Insert a list of points one after another; the boolean is the
conjunction of the individual insert results ("all inserts
succeeded"). -/
def insertAllPts (fuel : ℕ) : Quadtree → List QPoint → Option (Quadtree × Bool)
  | t, [] => some (t, true)
  | t, p :: ps =>
    match t.insert fuel p with
    | none => none
    | some (t', bl) =>
      match insertAllPts fuel t' ps with
      | none => none
      | some (t'', bl') => some (t'', bl && bl')

/-! ## Quadtree: structural invariant and basic geometry -/

/-- Every point stored anywhere in the tree, in node-first,
NE-NW-SE-SW order. -/
def Quadtree.stored : Quadtree → List QPoint
  | .leaf _ pts => pts
  | .node _ pts ne nw se sw =>
    pts ++ ne.stored ++ nw.stored ++ se.stored ++ sw.stored

/-- Well-formedness of a quadtree as built by the operations: every
point held at a node lies in that node's boundary, and a divided
node's children carry exactly the four subdivision quadrants of its
boundary. -/
def Quadtree.WF : Quadtree → Prop
  | .leaf b pts => ∀ p ∈ pts, b.contains p
  | .node b pts ne nw se sw =>
    (∀ p ∈ pts, b.contains p) ∧
      ne.boundary = b.neRect ∧ nw.boundary = b.nwRect ∧
      se.boundary = b.seRect ∧ sw.boundary = b.swRect ∧
      ne.WF ∧ nw.WF ∧ se.WF ∧ sw.WF

/-- The four subdivision quadrants exactly tile the parent: a point is
in the parent iff it is in one of the four children. -/
theorem contains_iff_quadrant (b : Rectangle) (p : QPoint) :
    b.contains p ↔
      (b.neRect.contains p ∨ b.nwRect.contains p ∨
       b.seRect.contains p ∨ b.swRect.contains p) := by
  unfold Rectangle.contains Rectangle.neRect Rectangle.nwRect
    Rectangle.seRect Rectangle.swRect
  dsimp only
  constructor
  · rintro ⟨h1, h2, h3, h4⟩
    rcases le_or_lt b.x p.px with hx | hx <;>
      rcases le_or_lt b.y p.py with hy | hy
    · exact Or.inr (Or.inr (Or.inl ⟨by linarith, by linarith, by linarith, by linarith⟩))
    · exact Or.inl ⟨by linarith, by linarith, by linarith, by linarith⟩
    · exact Or.inr (Or.inr (Or.inr ⟨by linarith, by linarith, by linarith, by linarith⟩))
    · exact Or.inr (Or.inl ⟨by linarith, by linarith, by linarith, by linarith⟩)
  · rintro (⟨h1, h2, h3, h4⟩ | ⟨h1, h2, h3, h4⟩ | ⟨h1, h2, h3, h4⟩ | ⟨h1, h2, h3, h4⟩) <;>
      refine ⟨by linarith, by linarith, by linarith, by linarith⟩

/-- A point lying in two rectangles forces those rectangles to
intersect: the query pruning test never discards a subtree holding a
point of the queried range. -/
theorem intersects_of_mem (b range : Rectangle) (p : QPoint)
    (hb : b.contains p) (hr : range.contains p) : b.intersects range := by
  obtain ⟨b1, b2, b3, b4⟩ := hb
  obtain ⟨r1, r2, r3, r4⟩ := hr
  unfold Rectangle.intersects
  rintro (h | h | h | h) <;> linarith

/-- Every point stored in a well-formed tree lies in the tree's root
boundary. -/
theorem stored_contains (t : Quadtree) :
    t.WF → ∀ p ∈ t.stored, t.boundary.contains p := by
  induction t with
  | leaf b pts =>
    intro hwf
    simp only [Quadtree.WF] at hwf
    simpa only [Quadtree.stored, Quadtree.boundary] using hwf
  | node b pts ne nw se sw ihne ihnw ihse ihsw =>
    intro hwf
    simp only [Quadtree.WF] at hwf
    obtain ⟨hpts, hbne, hbnw, hbse, hbsw, hne, hnw, hse, hsw⟩ := hwf
    intro p hp
    simp only [Quadtree.stored, List.mem_append] at hp
    simp only [Quadtree.boundary]
    rcases hp with ((((hp | hp) | hp) | hp) | hp)
    · exact hpts p hp
    · have h := ihne hne p hp
      rw [hbne] at h
      exact (contains_iff_quadrant b p).mpr (Or.inl h)
    · have h := ihnw hnw p hp
      rw [hbnw] at h
      exact (contains_iff_quadrant b p).mpr (Or.inr (Or.inl h))
    · have h := ihse hse p hp
      rw [hbse] at h
      exact (contains_iff_quadrant b p).mpr (Or.inr (Or.inr (Or.inl h)))
    · have h := ihsw hsw p hp
      rw [hbsw] at h
      exact (contains_iff_quadrant b p).mpr (Or.inr (Or.inr (Or.inr h)))

/-- Query correctness over well-formed trees: `query` returns exactly
the stored points lying in the range (as a multiset — a permutation of
the filtered stored list). -/
theorem query_perm (t : Quadtree) (range : Rectangle) :
    t.WF →
      List.Perm (t.query range)
        (t.stored.filter (fun p => decide (range.contains p))) := by
  induction t with
  | leaf b pts =>
    intro hwf
    simp only [Quadtree.WF] at hwf
    simp only [Quadtree.query, Quadtree.stored]
    by_cases h : b.intersects range
    · rw [if_pos h]
    · rw [if_neg h, List.filter_eq_nil_iff.mpr]
      intro p hp hc
      exact h (intersects_of_mem b range p (hwf p hp) (of_decide_eq_true hc))
  | node b pts ne nw se sw ihne ihnw ihse ihsw =>
    intro hwf
    have hwf' := hwf
    simp only [Quadtree.WF] at hwf'
    obtain ⟨hpts, hbne, hbnw, hbse, hbsw, hne, hnw, hse, hsw⟩ := hwf'
    simp only [Quadtree.query, Quadtree.stored]
    by_cases h : b.intersects range
    · rw [if_pos h]
      simp only [List.filter_append]
      exact ((((List.Perm.refl _).append (ihne hne)).append (ihnw hnw)).append
        (ihse hse)).append (ihsw hsw)
    · rw [if_neg h, List.filter_eq_nil_iff.mpr]
      intro p hp hc
      have hb := stored_contains (.node b pts ne nw se sw) hwf p
        (by simpa [Quadtree.stored] using hp)
      simp only [Quadtree.boundary] at hb
      exact h (intersects_of_mem b range p hb (of_decide_eq_true hc))

/-! ## Insert: behaviour of one insertion, by induction on the fuel -/

/-- All points stored below a child bundle. -/
def Children.storedC (c : Children) : List QPoint :=
  c.ne.stored ++ c.nw.stored ++ c.se.stored ++ c.sw.stored

/-- Well-formedness of a child bundle relative to the parent boundary:
children carry exactly the four subdivision quadrants and are
themselves well-formed. -/
def Children.WFC (b : Rectangle) (c : Children) : Prop :=
  c.ne.boundary = b.neRect ∧ c.nw.boundary = b.nwRect ∧
    c.se.boundary = b.seRect ∧ c.sw.boundary = b.swRect ∧
    c.ne.WF ∧ c.nw.WF ∧ c.se.WF ∧ c.sw.WF

/-- The induction package for one fuel level of `Quadtree.insert`:
boundary preservation, a failed insert changes nothing, and (on
well-formed trees) well-formedness is preserved, a successful insert
adds exactly the new point, and an insert of a contained point never
reports failure. -/
def InsOK (ins : Quadtree → QPoint → Option (Quadtree × Bool)) : Prop :=
  ∀ t p t' bl, ins t p = some (t', bl) →
    t'.boundary = t.boundary ∧
    (bl = false → t' = t) ∧
    (t.WF → t'.WF ∧
      (bl = true → List.Perm t'.stored (p :: t.stored)) ∧
      (t.boundary.contains p → bl = true))

/-- Behaviour of the four-child short-circuit cascade, given the
induction package for the child-level insert. -/
theorem insertChildren_spec {ins : Quadtree → QPoint → Option (Quadtree × Bool)}
    (hins : InsOK ins) (c : Children) (p : QPoint) (c' : Children) (bl : Bool)
    (h : insertChildren ins c p = some (c', bl)) (b : Rectangle)
    (hwfc : c.WFC b) :
    c'.WFC b ∧
      (bl = false → c' = c) ∧
      (bl = true → List.Perm c'.storedC (p :: c.storedC)) ∧
      (b.contains p → bl = true) := by
  obtain ⟨ne, nw, se, sw⟩ := c
  obtain ⟨hbne, hbnw, hbse, hbsw, hne, hnw, hse, hsw⟩ := hwfc
  unfold insertChildren at h
  simp only at h
  cases h1 : ins ne p with
  | none => rw [h1] at h; exact absurd h (by simp)
  | some r1 =>
  obtain ⟨ne', bl1⟩ := r1
  obtain ⟨hb1, hf1, hw1⟩ := hins ne p ne' bl1 h1
  rw [h1] at h
  cases bl1 with
  | true =>
    simp only [Option.some.injEq, Prod.mk.injEq] at h
    obtain ⟨rfl, rfl⟩ := h
    obtain ⟨hwf1, hst1, _⟩ := hw1 hne
    refine ⟨⟨hb1.trans hbne, hbnw, hbse, hbsw, hwf1, hnw, hse, hsw⟩, by simp, ?_,
      fun _ => rfl⟩
    intro _
    refine List.perm_iff_count.mpr fun a => ?_
    have h1c := (hst1 rfl).count_eq a
    simp only [Children.storedC, List.count_append, List.count_cons] at *
    omega
  | false =>
  have hne' : ne' = ne := hf1 rfl
  subst hne'
  simp only at h
  cases h2 : ins nw p with
  | none => rw [h2] at h; exact absurd h (by simp)
  | some r2 =>
  obtain ⟨nw', bl2⟩ := r2
  obtain ⟨hb2, hf2, hw2⟩ := hins nw p nw' bl2 h2
  rw [h2] at h
  cases bl2 with
  | true =>
    simp only [Option.some.injEq, Prod.mk.injEq] at h
    obtain ⟨rfl, rfl⟩ := h
    obtain ⟨hwf2, hst2, _⟩ := hw2 hnw
    refine ⟨⟨hbne, hb2.trans hbnw, hbse, hbsw, hne, hwf2, hse, hsw⟩, by simp, ?_,
      fun _ => rfl⟩
    intro _
    refine List.perm_iff_count.mpr fun a => ?_
    have h2c := (hst2 rfl).count_eq a
    simp only [Children.storedC, List.count_append, List.count_cons] at *
    omega
  | false =>
  have hnw' : nw' = nw := hf2 rfl
  subst hnw'
  simp only at h
  cases h3 : ins se p with
  | none => rw [h3] at h; exact absurd h (by simp)
  | some r3 =>
  obtain ⟨se', bl3⟩ := r3
  obtain ⟨hb3, hf3, hw3⟩ := hins se p se' bl3 h3
  rw [h3] at h
  cases bl3 with
  | true =>
    simp only [Option.some.injEq, Prod.mk.injEq] at h
    obtain ⟨rfl, rfl⟩ := h
    obtain ⟨hwf3, hst3, _⟩ := hw3 hse
    refine ⟨⟨hbne, hbnw, hb3.trans hbse, hbsw, hne, hnw, hwf3, hsw⟩, by simp, ?_,
      fun _ => rfl⟩
    intro _
    refine List.perm_iff_count.mpr fun a => ?_
    have h3c := (hst3 rfl).count_eq a
    simp only [Children.storedC, List.count_append, List.count_cons] at *
    omega
  | false =>
  have hse' : se' = se := hf3 rfl
  subst hse'
  simp only at h
  cases h4 : ins sw p with
  | none => rw [h4] at h; exact absurd h (by simp)
  | some r4 =>
  obtain ⟨sw', bl4⟩ := r4
  obtain ⟨hb4, hf4, hw4⟩ := hins sw p sw' bl4 h4
  rw [h4] at h
  simp only [Option.some.injEq, Prod.mk.injEq] at h
  obtain ⟨rfl, rfl⟩ := h
  cases bl4 with
  | true =>
    obtain ⟨hwf4, hst4, _⟩ := hw4 hsw
    refine ⟨⟨hbne, hbnw, hbse, hb4.trans hbsw, hne, hnw, hse, hwf4⟩, by simp, ?_,
      fun _ => rfl⟩
    intro _
    refine List.perm_iff_count.mpr fun a => ?_
    have h4c := (hst4 rfl).count_eq a
    simp only [Children.storedC, List.count_append, List.count_cons] at *
    omega
  | false =>
    have hsw' : sw' = sw := hf4 rfl
    subst hsw'
    refine ⟨⟨hbne, hbnw, hbse, hbsw, hne, hnw, hse, hsw⟩, fun _ => rfl, by simp, ?_⟩
    intro hcont
    exfalso
    have hq := (contains_iff_quadrant b p).mp hcont
    rcases hq with hq | hq | hq | hq
    · exact absurd ((hw1 hne).2.2 (by rw [hbne]; exact hq)) (by simp)
    · exact absurd ((hw2 hnw).2.2 (by rw [hbnw]; exact hq)) (by simp)
    · exact absurd ((hw3 hse).2.2 (by rw [hbse]; exact hq)) (by simp)
    · exact absurd ((hw4 hsw).2.2 (by rw [hbsw]; exact hq)) (by simp)

/-- A cascade that reports failure left every child untouched (needs
no well-formedness: a failed child insert is already unchanging). -/
theorem insertChildren_false {ins : Quadtree → QPoint → Option (Quadtree × Bool)}
    (hins : InsOK ins) (c : Children) (p : QPoint) (c' : Children)
    (h : insertChildren ins c p = some (c', false)) : c' = c := by
  obtain ⟨ne, nw, se, sw⟩ := c
  unfold insertChildren at h
  simp only at h
  cases h1 : ins ne p with
  | none => rw [h1] at h; exact absurd h (by simp)
  | some r1 =>
  obtain ⟨ne', bl1⟩ := r1
  rw [h1] at h
  cases bl1 with
  | true => simp at h
  | false =>
  have hne' : ne' = ne := (hins ne p ne' false h1).2.1 rfl
  subst hne'
  simp only at h
  cases h2 : ins nw p with
  | none => rw [h2] at h; exact absurd h (by simp)
  | some r2 =>
  obtain ⟨nw', bl2⟩ := r2
  rw [h2] at h
  cases bl2 with
  | true => simp at h
  | false =>
  have hnw' : nw' = nw := (hins nw p nw' false h2).2.1 rfl
  subst hnw'
  simp only at h
  cases h3 : ins se p with
  | none => rw [h3] at h; exact absurd h (by simp)
  | some r3 =>
  obtain ⟨se', bl3⟩ := r3
  rw [h3] at h
  cases bl3 with
  | true => simp at h
  | false =>
  have hse' : se' = se := (hins se p se' false h3).2.1 rfl
  subst hse'
  simp only at h
  cases h4 : ins sw p with
  | none => rw [h4] at h; exact absurd h (by simp)
  | some r4 =>
  obtain ⟨sw', bl4⟩ := r4
  rw [h4] at h
  cases bl4 with
  | true => simp at h
  | false =>
    simp only [Option.some.injEq, Prod.mk.injEq] at h
    have hsw' : sw' = sw := (hins sw p sw' false h4).2.1 rfl
    rw [← h.1, hsw']

/-- The re-insertion loop preserves child well-formedness, and, when
every re-inserted point lies in the parent boundary, redistributes
exactly the given points into the children. -/
theorem reinsertAll_spec {ins : Quadtree → QPoint → Option (Quadtree × Bool)}
    (hins : InsOK ins) :
    ∀ (ps : List QPoint) (c c' : Children),
      reinsertAll ins ps c = some c' → ∀ b, c.WFC b →
        c'.WFC b ∧
          ((∀ q ∈ ps, b.contains q) →
            List.Perm c'.storedC (ps ++ c.storedC)) := by
  intro ps
  induction ps with
  | nil =>
    intro c c' h b hwfc
    simp only [reinsertAll, Option.some.injEq] at h
    subst h
    exact ⟨hwfc, fun _ => by simp⟩
  | cons p ps ih =>
    intro c c' h b hwfc
    simp only [reinsertAll] at h
    cases hic : insertChildren ins c p with
    | none => rw [hic] at h; exact absurd h (by simp)
    | some r =>
      obtain ⟨c1, bl⟩ := r
      rw [hic] at h
      simp only at h
      obtain ⟨hwfc1, _, hst1, hbl1⟩ := insertChildren_spec hins c p c1 bl hic b hwfc
      obtain ⟨hwfc', hst'⟩ := ih c1 c' h b hwfc1
      refine ⟨hwfc', fun hall => ?_⟩
      have hbl : bl = true := hbl1 (hall p (by simp))
      subst hbl
      have hc1 := hst1 rfl
      have hc' := hst' fun q hq => hall q (by simp [hq])
      refine List.perm_iff_count.mpr fun a => ?_
      have e1 := hc1.count_eq a
      have e2 := hc'.count_eq a
      simp only [List.count_append, List.count_cons] at *
      omega

/-- The four fresh children produced by `subdivide()` are well-formed
for their parent boundary. -/
theorem subdivide_WFC (b : Rectangle) : (Quadtree.subdivide b).WFC b := by
  unfold Quadtree.subdivide Children.WFC
  simp [Quadtree.boundary, Quadtree.WF]

/-- Nothing is stored below fresh children. -/
theorem subdivide_storedC (b : Rectangle) :
    (Quadtree.subdivide b).storedC = [] := by
  unfold Quadtree.subdivide Children.storedC
  simp [Quadtree.stored]

/-- Master lemma: at every fuel level, `Quadtree.insert` preserves the
boundary and well-formedness, a failed insert changes nothing, a
successful insert stores exactly the new point in addition, and
inserting a point contained in a well-formed tree's boundary never
reports failure. -/
theorem insert_insOK : ∀ fuel, InsOK (Quadtree.insert fuel) := by
  intro fuel
  induction fuel with
  | zero =>
    intro t p t' bl h
    simp [Quadtree.insert] at h
  | succ fuel ih =>
    intro t p t' bl h
    cases t with
    | leaf b pts =>
      simp only [Quadtree.insert] at h
      by_cases hc : b.contains p
      · rw [if_pos hc] at h
        by_cases hlen : pts.length < QUADTREE_CAPACITY
        · rw [if_pos hlen] at h
          simp only [Option.some.injEq, Prod.mk.injEq] at h
          obtain ⟨ht', hbl⟩ := h
          subst ht'
          subst hbl
          refine ⟨by simp [Quadtree.boundary], by simp, fun hwf => ?_⟩
          simp only [Quadtree.WF] at hwf ⊢
          refine ⟨?_, fun _ => ?_, fun _ => by trivial⟩
          · intro q hq
            rcases List.mem_append.mp hq with hq | hq
            · exact hwf q hq
            · rw [List.mem_singleton.mp hq]; exact hc
          · simpa [Quadtree.stored] using List.perm_append_singleton p pts
        · rw [if_neg hlen] at h
          cases hra : reinsertAll (Quadtree.insert fuel) pts (Quadtree.subdivide b) with
          | none => simp only [hra] at h; exact absurd h (by simp)
          | some c1 =>
            simp only [hra] at h
            cases hic : insertChildren (Quadtree.insert fuel) c1 p with
            | none => simp only [hic] at h; exact absurd h (by simp)
            | some r =>
              obtain ⟨c', bl0⟩ := r
              simp only [hic, Option.some.injEq, Prod.mk.injEq] at h
              obtain ⟨ht', hbl⟩ := h
              subst ht'
              subst hbl
              obtain ⟨hwfc1, hra_st⟩ :=
                reinsertAll_spec ih pts (Quadtree.subdivide b) c1 hra b (subdivide_WFC b)
              obtain ⟨hwfc', _, hst', hcont'⟩ :=
                insertChildren_spec ih c1 p c' bl0 hic b hwfc1
              have hbl0 : bl0 = true := hcont' hc
              subst hbl0
              refine ⟨by simp [Quadtree.boundary], by simp, fun hwf => ?_⟩
              simp only [Quadtree.WF] at hwf ⊢
              obtain ⟨hb1, hb2, hb3, hb4, hw1, hw2, hw3, hw4⟩ := hwfc'
              refine ⟨⟨by simp, hb1, hb2, hb3, hb4, hw1, hw2, hw3, hw4⟩, fun _ => ?_,
                fun _ => by trivial⟩
              have e1 := (hra_st hwf).count_eq
              have e2 := (hst' rfl).count_eq
              refine List.perm_iff_count.mpr fun a => ?_
              have e1a := e1 a
              have e2a := e2 a
              rw [subdivide_storedC] at e1a
              simp only [Quadtree.stored, Children.storedC, List.count_append,
                List.count_cons, List.count_nil] at *
              omega
      · rw [if_neg hc] at h
        simp only [Option.some.injEq, Prod.mk.injEq] at h
        obtain ⟨ht', hbl⟩ := h
        subst ht'
        subst hbl
        refine ⟨rfl, fun _ => rfl, fun hwf => ⟨hwf, by simp, fun hcc => absurd hcc hc⟩⟩
    | node b pts ne nw se sw =>
      simp only [Quadtree.insert] at h
      by_cases hc : b.contains p
      · rw [if_pos hc] at h
        cases hic : insertChildren (Quadtree.insert fuel) ⟨ne, nw, se, sw⟩ p with
        | none => simp only [hic] at h; exact absurd h (by simp)
        | some r =>
          obtain ⟨c', bl0⟩ := r
          simp only [hic, Option.some.injEq, Prod.mk.injEq] at h
          obtain ⟨ht', hbl⟩ := h
          subst ht'
          subst hbl
          refine ⟨by simp [Quadtree.boundary], fun h0 => ?_, fun hwf => ?_⟩
          · subst h0
            have hceq := insertChildren_false ih ⟨ne, nw, se, sw⟩ p c' hic
            rw [hceq]
          · simp only [Quadtree.WF] at hwf ⊢
            obtain ⟨hpts, hbne, hbnw, hbse, hbsw, hne, hnw, hse, hsw⟩ := hwf
            obtain ⟨hwfc', _, hst', hcont'⟩ :=
              insertChildren_spec ih ⟨ne, nw, se, sw⟩ p c' bl0 hic b
                ⟨hbne, hbnw, hbse, hbsw, hne, hnw, hse, hsw⟩
            obtain ⟨hb1, hb2, hb3, hb4, hw1, hw2, hw3, hw4⟩ := hwfc'
            refine ⟨⟨hpts, hb1, hb2, hb3, hb4, hw1, hw2, hw3, hw4⟩, fun hbl0 => ?_,
              fun _ => hcont' hc⟩
            subst hbl0
            have e2 := (hst' rfl).count_eq
            refine List.perm_iff_count.mpr fun a => ?_
            have e2a := e2 a
            simp only [Quadtree.stored, Children.storedC, List.count_append,
              List.count_cons] at *
            omega
      · rw [if_neg hc] at h
        simp only [Option.some.injEq, Prod.mk.injEq] at h
        obtain ⟨ht', hbl⟩ := h
        subst ht'
        subst hbl
        refine ⟨rfl, fun _ => rfl, fun hwf => ⟨hwf, by simp, fun hcc => absurd hcc hc⟩⟩

/-- Inserting a list of points with overall success preserves
well-formedness and stores exactly those points in addition. -/
theorem insertAllPts_spec (fuel : ℕ) :
    ∀ (ps : List QPoint) (t t' : Quadtree),
      insertAllPts fuel t ps = some (t', true) → t.WF →
        t'.WF ∧ List.Perm t'.stored (ps ++ t.stored) := by
  intro ps
  induction ps with
  | nil =>
    intro t t' h hwf
    simp only [insertAllPts, Option.some.injEq, Prod.mk.injEq] at h
    rw [← h.1]
    exact ⟨hwf, by simp⟩
  | cons p ps ih =>
    intro t t' h hwf
    simp only [insertAllPts] at h
    cases hi : t.insert fuel p with
    | none => simp only [hi] at h; exact absurd h (by simp)
    | some r =>
      obtain ⟨t1, bl⟩ := r
      simp only [hi] at h
      cases hrest : insertAllPts fuel t1 ps with
      | none => simp only [hrest] at h; exact absurd h (by simp)
      | some r' =>
        obtain ⟨t2, bl'⟩ := r'
        simp only [hrest, Option.some.injEq, Prod.mk.injEq] at h
        obtain ⟨ht2, hbl⟩ := h
        rw [Bool.and_eq_true] at hbl
        obtain ⟨hbl1, hbl2⟩ := hbl
        subst hbl1
        subst hbl2
        subst ht2
        obtain ⟨hwf1, hperm1, _⟩ := (insert_insOK fuel t p t1 true hi).2.2 hwf
        obtain ⟨hwf', hperm'⟩ := ih t1 t2 hrest hwf1
        refine ⟨hwf', List.perm_iff_count.mpr fun a => ?_⟩
        have e1 := (hperm1 rfl).count_eq a
        have e2 := hperm'.count_eq a
        simp only [List.count_append, List.count_cons] at *
        omega

/-- C3: Spatial-index round-trip.  For every list of particles all
successfully inserted (each insert returned `true`) into a quadtree
rooted at region `r`, and every axis-aligned query rectangle, `query`
returns exactly the multiset of inserted particles whose stored
position lies in the range — where `Rectangle.contains` is the
inclusive-lower-bound / exclusive-upper-bound test of the source.
The statement is fully general over the insertion sequence, so it
covers both the single-leaf case (capacity not exceeded) and the case
where inserts force subdivision into four quadrants (exercised by the
witness below). -/
theorem c3_quadtree_roundtrip (r : Rectangle) (ps : List QPoint) (fuel : ℕ)
    (t : Quadtree) (range : Rectangle)
    (hins : insertAllPts fuel (Quadtree.leaf r []) ps = some (t, true)) :
    List.Perm (t.query range)
      (ps.filter (fun p => decide (range.contains p))) := by
  have hwf0 : (Quadtree.leaf r []).WF := by simp [Quadtree.WF]
  obtain ⟨hwf, hst⟩ := insertAllPts_spec fuel ps _ t hins hwf0
  have hq := query_perm t range hwf
  have hfil := hst.filter (fun p => decide (range.contains p))
  simp only [Quadtree.stored, List.append_nil] at hfil
  exact hq.trans hfil

/-- Witness for C3 at a concrete subdivision-forcing input: nine
particles — eight in the north-east quadrant, a ninth in the
north-west quadrant that overflows the root capacity and forces
subdivision — inserted into the root region `[-16,16) × [-16,16)`,
then queried with the box `[-3,3) × [-3,3)`. -/
theorem c3_quadtree_roundtrip_witness :
    List.Perm
      ((Quadtree.node ⟨0, 0, 16, 16⟩ []
        (.leaf ⟨8, -8, 8, 8⟩
          [⟨1, 1, -1⟩, ⟨2, 2, -1⟩, ⟨3, 3, -1⟩, ⟨4, 4, -1⟩,
           ⟨5, 5, -1⟩, ⟨6, 6, -1⟩, ⟨7, 7, -1⟩, ⟨8, 8, -1⟩])
        (.leaf ⟨-8, -8, 8, 8⟩ [⟨9, -4, -4⟩])
        (.leaf ⟨8, 8, 8, 8⟩ [])
        (.leaf ⟨-8, 8, 8, 8⟩ [])).query ⟨0, 0, 3, 3⟩)
      (([⟨1, 1, -1⟩, ⟨2, 2, -1⟩, ⟨3, 3, -1⟩, ⟨4, 4, -1⟩,
         ⟨5, 5, -1⟩, ⟨6, 6, -1⟩, ⟨7, 7, -1⟩, ⟨8, 8, -1⟩,
         ⟨9, -4, -4⟩] : List QPoint).filter
        (fun p => decide ((⟨0, 0, 3, 3⟩ : Rectangle).contains p))) := by
  refine c3_quadtree_roundtrip ⟨0, 0, 16, 16⟩ _ 3 _ ⟨0, 0, 3, 3⟩ ?_
  norm_num [insertAllPts, Quadtree.insert, insertChildren, reinsertAll,
    Quadtree.subdivide, Rectangle.contains, Rectangle.neRect, Rectangle.nwRect,
    Rectangle.seRect, Rectangle.swRect, QUADTREE_CAPACITY]

/-- C9: Index bounds miss.  Inserting a particle whose position lies
outside a node's region returns `false` and leaves the whole index
unchanged (no node gains a point, no node subdivides); inserting a
particle whose position lies inside the region of a well-formed index
never returns `false` (whenever the recursion returns, the result flag
is `true`).  The embedding is a total function, mirroring that the
source never throws. -/
theorem c9_insert_bounds (t : Quadtree) (p : QPoint) :
    (¬ t.boundary.contains p →
      ∀ fuel, t.insert (fuel + 1) p = some (t, false)) ∧
    (t.WF → t.boundary.contains p →
      ∀ fuel t' bl, t.insert fuel p = some (t', bl) → bl = true) := by
  constructor
  · intro hc fuel
    cases t with
    | leaf b pts =>
      simp only [Quadtree.boundary] at hc
      simp only [Quadtree.insert, if_neg hc]
    | node b pts ne nw se sw =>
      simp only [Quadtree.boundary] at hc
      simp only [Quadtree.insert, if_neg hc]
  · intro hwf hc fuel t' bl h
    exact ((insert_insOK fuel t p t' bl h).2.2 hwf).2.2 hc

/-- Witness for C9: in the root region `[-16,16) × [-16,16)`, the
out-of-bounds particle at `(20, 0)` is rejected with the tree
unchanged, and the in-bounds particle at `(1, 1)` is accepted. -/
theorem c9_insert_bounds_witness :
    (Quadtree.leaf ⟨0, 0, 16, 16⟩ []).insert 1 ⟨0, 20, 0⟩ =
        some (Quadtree.leaf ⟨0, 0, 16, 16⟩ [], false) ∧
      true = true := by
  constructor
  · exact (c9_insert_bounds (Quadtree.leaf ⟨0, 0, 16, 16⟩ []) ⟨0, 20, 0⟩).1
      (by norm_num [Quadtree.boundary, Rectangle.contains]) 0
  · exact (c9_insert_bounds (Quadtree.leaf ⟨0, 0, 16, 16⟩ []) ⟨0, 1, 1⟩).2
      (by simp [Quadtree.WF])
      (by norm_num [Quadtree.boundary, Rectangle.contains]) 1
      (Quadtree.leaf ⟨0, 0, 16, 16⟩ [⟨0, 1, 1⟩]) true
      (by norm_num [Quadtree.insert, Rectangle.contains, QUADTREE_CAPACITY])

/-! ## Divergence of `insert` on more than `QUADTREE_CAPACITY`
coincident points (exact arithmetic)

The following two lemmas document why the termination claim about
coincident-point overflow is a floating-point artefact and cannot be
settled in this exact-arithmetic embedding: inserting a point into a
full leaf whose points all coincide with it subdivides forever — every
fuel budget is exhausted — because the coincident points land together
in the same child quadrant at every depth.  (The JavaScript program
halts on such inputs only because repeatedly halving the IEEE-754
half-width eventually underflows, after which `contains` fails and the
points are silently dropped.)  The corner point `(x - w, y - h)` is
used so that the occupied child is the north-west quadrant at every
depth. -/

/-- Re-inserting coincident corner points into fresh children piles
them all into the north-west child (or exhausts the fuel). -/
theorem reinsert_coincident (p : QPoint) (fuel : ℕ) (b : Rectangle)
    (hw : 0 < b.w) (hh : 0 < b.h)
    (hx : p.px = b.x - b.w) (hy : p.py = b.y - b.h) :
    ∀ (k acc : List QPoint), (∀ q ∈ k, q.px = p.px ∧ q.py = p.py) →
      acc.length + k.length ≤ QUADTREE_CAPACITY →
      reinsertAll (Quadtree.insert fuel) k
          ⟨.leaf b.neRect [], .leaf b.nwRect acc,
           .leaf b.seRect [], .leaf b.swRect []⟩ = none ∨
      reinsertAll (Quadtree.insert fuel) k
          ⟨.leaf b.neRect [], .leaf b.nwRect acc,
           .leaf b.seRect [], .leaf b.swRect []⟩ =
        some ⟨.leaf b.neRect [], .leaf b.nwRect (acc ++ k),
              .leaf b.seRect [], .leaf b.swRect []⟩ := by
  intro k
  induction k with
  | nil =>
    intro acc _ _
    right
    simp [reinsertAll]
  | cons q k ih =>
    intro acc hco hlen
    obtain ⟨hqx, hqy⟩ := hco q (by simp)
    cases fuel with
    | zero =>
      left
      simp [reinsertAll, insertChildren, Quadtree.insert]
    | succ f =>
      have hne : ¬ b.neRect.contains q := by
        unfold Rectangle.contains Rectangle.neRect
        dsimp only
        rw [hqx, hx]
        rintro ⟨h1, -, -, -⟩
        linarith
      have hnw : b.nwRect.contains q := by
        unfold Rectangle.contains Rectangle.nwRect
        dsimp only
        rw [hqx, hx, hqy, hy]
        refine ⟨by linarith, by linarith, by linarith, by linarith⟩
      have hacc : acc.length < QUADTREE_CAPACITY := by
        simp only [List.length_cons] at hlen
        omega
      have step1 : Quadtree.insert (f + 1) (.leaf b.neRect []) q =
          some (.leaf b.neRect [], false) := by
        simp only [Quadtree.insert, if_neg hne]
      have step2 : Quadtree.insert (f + 1) (.leaf b.nwRect acc) q =
          some (.leaf b.nwRect (acc ++ [q]), true) := by
        simp only [Quadtree.insert, if_pos hnw, if_pos hacc]
      have stepC : insertChildren (Quadtree.insert (f + 1))
          ⟨.leaf b.neRect [], .leaf b.nwRect acc,
           .leaf b.seRect [], .leaf b.swRect []⟩ q =
          some (⟨.leaf b.neRect [], .leaf b.nwRect (acc ++ [q]),
                 .leaf b.seRect [], .leaf b.swRect []⟩, true) := by
        unfold insertChildren
        simp only [step1, step2]
      have hre := ih (acc ++ [q])
        (fun q' hq' => hco q' (by simp [hq']))
        (by simp only [List.length_append, List.length_cons,
              List.length_nil] at hlen ⊢; omega)
      simp only [reinsertAll, stepC]
      simpa [List.append_assoc] using hre

/-- Coincident-point overflow diverges: for every boundary with
positive extents, inserting one more point coincident with the
`QUADTREE_CAPACITY` points of a full leaf (all at the boundary's
lower corner) exhausts every fuel budget — under exact arithmetic the
subdivision recursion of the source never returns on such input. -/
theorem insert_coincident_overflow (fuel : ℕ) :
    ∀ (b : Rectangle) (pts : List QPoint) (p : QPoint),
      0 < b.w → 0 < b.h → p.px = b.x - b.w → p.py = b.y - b.h →
      pts.length = QUADTREE_CAPACITY →
      (∀ q ∈ pts, q.px = p.px ∧ q.py = p.py) →
      Quadtree.insert fuel (.leaf b pts) p = none := by
  induction fuel with
  | zero =>
    intro b pts p _ _ _ _ _ _
    simp [Quadtree.insert]
  | succ f ih =>
    intro b pts p hw hh hx hy hlen hco
    have hcont : b.contains p := by
      unfold Rectangle.contains
      rw [hx, hy]
      refine ⟨le_refl _, by linarith, le_refl _, by linarith⟩
    have hfull : ¬ pts.length < QUADTREE_CAPACITY := by
      rw [hlen]
      exact lt_irrefl _
    simp only [Quadtree.insert, if_pos hcont, if_neg hfull]
    rcases reinsert_coincident p f b hw hh hx hy pts [] hco
        (by simp [hlen]) with hre | hre
    · simp only [Quadtree.subdivide, hre]
    · simp only [Quadtree.subdivide, hre, List.nil_append]
      have hnw2 : (b.nwRect).contains p := by
        unfold Rectangle.contains Rectangle.nwRect
        dsimp only
        rw [hx, hy]
        refine ⟨by linarith, by linarith, by linarith, by linarith⟩
      have hstepnw : Quadtree.insert f (.leaf b.nwRect pts) p = none := by
        refine ih b.nwRect pts p (by simp [Rectangle.nwRect]; linarith)
          (by simp [Rectangle.nwRect]; linarith) ?_ ?_ hlen hco
        · simp [Rectangle.nwRect]; rw [hx]; ring
        · simp [Rectangle.nwRect]; rw [hy]; ring
      cases f with
      | zero =>
        simp [insertChildren, Quadtree.insert]
      | succ g =>
        have hne2 : ¬ b.neRect.contains p := by
          unfold Rectangle.contains Rectangle.neRect
          dsimp only
          rw [hx]
          rintro ⟨h1, -, -, -⟩
          linarith
        have step1 : Quadtree.insert (g + 1) (.leaf b.neRect []) p =
            some (.leaf b.neRect [], false) := by
          simp only [Quadtree.insert, if_neg hne2]
        have stepC : insertChildren (Quadtree.insert (g + 1))
            ⟨.leaf b.neRect [], .leaf b.nwRect pts,
             .leaf b.seRect [], .leaf b.swRect []⟩ p = none := by
          unfold insertChildren
          simp only [step1, hstepnw]
        simp only [stepC]

/-! ## Letters, word formations and recruitment

State slice for the recruitment protocol: `Letter` fields touched by
`formWord`, `WordFormation.dissolve`, the per-frame formation update
of `draw()`, and the letter-grab branch of `mousePressed`.  Letters
are referenced by their index in the `letters` array (standing for
JavaScript object identity).  The trigonometric path fields of
`WordFormation` (`direction`, `currentOrientation`) and the
`targetPos` layout of `updateTargetPositions` drive only rendering
targets; no claim below depends on them, and the per-tick position of
a formation enters the model as an oracle parameter of the tick
event. -/

/-- The recruitment-relevant state of one `Letter`. -/
structure RLetter where
  char : Char
  pos : V2
  vel : V2
  recruited : Bool
  wordId : Option ℕ
  targetIndex : ℤ
  targetPos : Option V2
  dragging : Bool
deriving DecidableEq, Repr

/-- The recruitment-relevant state of one `WordFormation`:
`letters` is the ordered list of recruited letter indices. -/
structure WordFormation where
  word : List Char
  id : ℕ
  letters : List ℕ
  pos : V2
  pathProgress : ℚ
  launched : Bool
deriving DecidableEq, Repr

/-- `PATH_SPEED = 0.0005`. -/
def PATH_SPEED : ℚ := 0.0005

/-- `letter.radius = size / 2 = 12`. -/
def LETTER_RADIUS : ℚ := 12

/-- Update one entry of the letters array in place (no-op on an
out-of-range index, which never occurs in well-formed states). -/
def updateAt (ls : List RLetter) (i : ℕ) (g : RLetter → RLetter) :
    List RLetter :=
  match ls[i]? with
  | none => ls
  | some l => ls.set i (g l)

/-- `letters.filter(l => l.char === char && !l.recruited)`, as the
list of letter indices in array order. -/
def availableFor (letters : List RLetter) (c : Char) : List ℕ :=
  (List.range letters.length).filter fun i =>
    match letters[i]? with
    | some l => l.char == c && !l.recruited
    | none => false

/-- Squared distance from letter `k`'s position to `origin` (0 for an
out-of-range index). -/
def letterDistSq (letters : List RLetter) (origin : V2) (k : ℕ) : ℚ :=
  match letters[k]? with
  | some l => V2.distSq l.pos origin
  | none => 0

/-- The selection step of `formWord`: the source sorts the available
letters by Euclidean distance to `formation.pos` (a stable sort) and
takes the first element.  The embedding picks the earliest index of
minimal squared distance — the same letter, since `Math.sqrt` is
strictly monotone (`letterDist_le_iff` below connects the two). -/
def pickClosest (letters : List RLetter) (origin : V2) :
    List ℕ → Option ℕ
  | [] => none
  | i :: rest =>
    some (rest.foldl
      (fun best j =>
        if letterDistSq letters origin j < letterDistSq letters origin best
        then j else best) i)

/-- One iteration of the recruitment loop of `formWord` (character
`c` at word position `i`): if no non-recruited matching letter
exists, the slot is skipped; otherwise the closest available letter is
marked recruited with this slot index and the formation's id, and
appended to the formation's letter list. -/
def recruitOne (letters : List RLetter) (f : WordFormation) (i : ℕ)
    (c : Char) : List RLetter × WordFormation :=
  match pickClosest letters f.pos (availableFor letters c) with
  | none => (letters, f)
  | some j =>
    (updateAt letters j fun l =>
      { l with recruited := true, wordId := some f.id, targetIndex := (i : ℤ) },
     { f with letters := f.letters ++ [j] })

/-- The recruitment loop of `formWord` over the word's indexed
characters. -/
def formWordRec (letters : List RLetter) (f : WordFormation) :
    List (ℕ × Char) → List RLetter × WordFormation
  | [] => (letters, f)
  | (i, c) :: rest =>
    let r := recruitOne letters f i c
    formWordRec r.1 r.2 rest

/-- The ocean-level state formWord and the frame loop act on. -/
structure OceanState where
  letters : List RLetter
  activeWords : List WordFormation
  nextWordId : ℕ
deriving DecidableEq, Repr

/-- `formWord(word)`: uppercase the word, create a formation with a
fresh id anchored at `origin` (the current centre), recruit letters
for each character position, and append the formation to
`activeWords`. -/
def formWord (s : OceanState) (word : List Char) (origin : V2) :
    OceanState :=
  let w := word.map Char.toUpper
  let r := formWordRec s.letters
    ⟨w, s.nextWordId, [], origin, 0, false⟩ w.enum
  { letters := r.1, activeWords := s.activeWords ++ [r.2],
    nextWordId := s.nextWordId + 1 }

/-- The per-letter release of `dissolve()`. -/
def clearLetter (l : RLetter) : RLetter :=
  { l with
    recruited := false
    wordId := none
    targetPos := none
    targetIndex := -1
    vel := V2.scale 0.3 l.vel }

/-- `WordFormation.dissolve()`: no-op when already launched, else
release every recruited letter (clearing its flags and damping its
velocity by 0.3) and mark the formation launched. -/
def dissolveF (ls : List RLetter) (f : WordFormation) :
    List RLetter × WordFormation :=
  if f.launched then (ls, f)
  else
    (f.letters.foldl (fun a j => updateAt a j clearLetter) ls,
     { f with launched := true })

/-- `shouldDissolve()`: the path progress passed the threshold. -/
def shouldDissolve (f : WordFormation) : Prop := f.pathProgress ≥ 0.2

instance (f : WordFormation) : Decidable (shouldDissolve f) := by
  unfold shouldDissolve
  infer_instance

/-- `WordFormation.update()` as far as the modelled state goes:
no-op when launched, else advance the path progress and move to the
position the parametric path dictates this tick (supplied by the
oracle `posOf`, since the trigonometric path itself is outside the
modelled slice). -/
def formUpdate (posOf : ℕ → V2) (f : WordFormation) : WordFormation :=
  if f.launched then f
  else { f with
    pathProgress := f.pathProgress + PATH_SPEED
    pos := posOf f.id }

/-- The formation pass of `draw()`: iterate over `activeWords` from
the last index down to 0 — `update()`, then `dissolve()` when
`shouldDissolve()`, then splice out launched formations.  The
recursion below processes the tail (higher indices) first, matching
the source's iteration order, and keeps the relative order of the
surviving formations. -/
def tickFormations (posOf : ℕ → V2) :
    List WordFormation → List RLetter →
      List RLetter × List WordFormation
  | [], ls => (ls, [])
  | f :: rest, ls =>
    let r := tickFormations posOf rest ls
    let f1 := formUpdate posOf f
    let r2 := if shouldDissolve f1 then dissolveF r.1 f1 else (r.1, f1)
    (r2.1, if r2.2.launched then r.2 else r2.2 :: r.2)

/-- One formation-update tick of the frame loop. -/
def tick (posOf : ℕ → V2) (s : OceanState) : OceanState :=
  let r := tickFormations posOf s.activeWords s.letters
  { s with letters := r.1, activeWords := r.2 }

/-- The letter-grab scan of `mousePressed`: the first letter (in
array order) within `radius * 2` of the mouse. -/
def firstGrabbed (letters : List RLetter) (mouse : V2) : Option ℕ :=
  (List.range letters.length).find? fun i =>
    match letters[i]? with
    | some l =>
      decide (V2.distSq l.pos mouse < (2 * LETTER_RADIUS) * (2 * LETTER_RADIUS))
    | none => false

/-- `mousePressed`: when a letter is hit, stop it, release it from
any word formation (`recruited = false` — without removing it from
the formation's letter list) and mark it dragging; otherwise the
handler only starts dragging the gravity centre, which leaves the
modelled state unchanged.  The hit test compares squared distances
(`dist < 2r` iff `distSq < (2r)²` for the nonnegative p5 distance). -/
def mousePressed (mouse : V2) (s : OceanState) : OceanState :=
  match firstGrabbed s.letters mouse with
  | none => s
  | some i =>
    { s with letters := updateAt s.letters i fun l =>
        { l with
          vel := V2.scale 0 l.vel
          recruited := false
          dragging := true } }

/-- The externally visible events that touch the recruitment state. -/
inductive OceanEv where
  | form (word : List Char) (origin : V2)
  | tick (posOf : ℕ → V2)
  | press (mouse : V2)

/-- Whether an event is a letter/centre grab. -/
def OceanEv.isPress : OceanEv → Bool
  | .press _ => true
  | _ => false

/-- One event step of the sketch. -/
def oceanStep (s : OceanState) : OceanEv → OceanState
  | .form w o => formWord s w o
  | .tick posOf => tick posOf s
  | .press m => mousePressed m s

/-- A run of the sketch from a start state. -/
def oceanRun (s : OceanState) (evs : List OceanEv) : OceanState :=
  evs.foldl oceanStep s

/-- Number of active formations listing letter `i`, with multiplicity. -/
def occCount (s : OceanState) (i : ℕ) : ℕ :=
  (s.activeWords.map fun f => f.letters.count i).sum

/-- The `recruited` flag of letter `i` (`false` out of range). -/
def recruitedFlag (s : OceanState) (i : ℕ) : Bool :=
  match s.letters[i]? with
  | some l => l.recruited
  | none => false

/-! ## Recruitment bookkeeping lemmas -/

/-- The recruited flag of letter `i` as a count (`0` or `1`). -/
def flagN (ls : List RLetter) (i : ℕ) : ℕ :=
  match ls[i]? with
  | some l => if l.recruited then 1 else 0
  | none => 0

/-- Occurrences of letter index `i` across a list of formations. -/
def occL (ws : List WordFormation) (i : ℕ) : ℕ :=
  (ws.map fun f => f.letters.count i).sum

theorem flagN_le_one (ls : List RLetter) (i : ℕ) : flagN ls i ≤ 1 := by
  unfold flagN
  cases ls[i]? with
  | none => exact Nat.zero_le 1
  | some l => by_cases h : l.recruited <;> simp [h]

theorem occL_cons (f : WordFormation) (ws : List WordFormation) (i : ℕ) :
    occL (f :: ws) i = f.letters.count i + occL ws i := by
  simp [occL]

theorem occCount_eq_occL (s : OceanState) (i : ℕ) :
    occCount s i = occL s.activeWords i := rfl

theorem recruitedFlag_flagN (s : OceanState) (i : ℕ) :
    flagN s.letters i = if recruitedFlag s i then 1 else 0 := by
  unfold flagN recruitedFlag
  cases s.letters[i]? with
  | none => simp
  | some l => rfl

theorem updateAt_length (ls : List RLetter) (j : ℕ) (g : RLetter → RLetter) :
    (updateAt ls j g).length = ls.length := by
  unfold updateAt
  cases ls[j]? with
  | none => rfl
  | some l => simp

theorem updateAt_getElem (ls : List RLetter) (j : ℕ) (g : RLetter → RLetter)
    (i : ℕ) :
    (updateAt ls j g)[i]? = if i = j then Option.map g ls[i]? else ls[i]? := by
  unfold updateAt
  cases h : ls[j]? with
  | none =>
    by_cases hij : i = j
    · subst hij; simp [h]
    · simp [hij]
  | some l =>
    have hlen : j < ls.length := (List.getElem?_eq_some_iff.mp h).1
    by_cases hij : i = j
    · subst hij
      simp [List.getElem?_set, hlen, h]
    · have hji : j ≠ i := fun e => hij e.symm
      simp [List.getElem?_set, hji, hij]

/-- Membership in the available-letter filter of `formWord`: exactly
the in-range indices of non-recruited letters with the requested
glyph. -/
theorem mem_availableFor (letters : List RLetter) (c : Char) (j : ℕ) :
    j ∈ availableFor letters c ↔
      ∃ l, letters[j]? = some l ∧ l.char = c ∧ l.recruited = false := by
  unfold availableFor
  rw [List.mem_filter, List.mem_range]
  constructor
  · rintro ⟨hj, hp⟩
    cases h : letters[j]? with
    | none => rw [h] at hp; simp at hp
    | some l =>
      rw [h] at hp
      simp only [Bool.and_eq_true, beq_iff_eq, Bool.not_eq_true'] at hp
      exact ⟨l, rfl, hp.1, hp.2⟩
  · rintro ⟨l, hl, hc, hr⟩
    have hj : j < letters.length := (List.getElem?_eq_some_iff.mp hl).1
    refine ⟨hj, ?_⟩
    rw [hl]
    simp [hc, hr]

theorem pickClosest_none_iff (letters : List RLetter) (o : V2)
    (l : List ℕ) : pickClosest letters o l = none ↔ l = [] := by
  cases l <;> simp [pickClosest]

theorem pickClosest_spec (letters : List RLetter) (o : V2) :
    ∀ (l : List ℕ) (j : ℕ), pickClosest letters o l = some j →
      j ∈ l ∧ ∀ k ∈ l, letterDistSq letters o j ≤ letterDistSq letters o k := by
  have haux : ∀ (rest : List ℕ) (best : ℕ),
      (rest.foldl (fun best j =>
          if letterDistSq letters o j < letterDistSq letters o best
          then j else best) best) = best ∨
        (rest.foldl (fun best j =>
          if letterDistSq letters o j < letterDistSq letters o best
          then j else best) best) ∈ rest := by
    intro rest
    induction rest with
    | nil => intro best; left; rfl
    | cons k rest ih =>
      intro best
      simp only [List.foldl_cons]
      rcases ih (if letterDistSq letters o k < letterDistSq letters o best
          then k else best) with h | h
      · rw [h]
        split
        · right; simp
        · left; rfl
      · right; simp [h]
  have hmin : ∀ (rest : List ℕ) (best : ℕ),
      letterDistSq letters o (rest.foldl (fun best j =>
          if letterDistSq letters o j < letterDistSq letters o best
          then j else best) best) ≤ letterDistSq letters o best ∧
        ∀ k ∈ rest,
          letterDistSq letters o (rest.foldl (fun best j =>
            if letterDistSq letters o j < letterDistSq letters o best
            then j else best) best) ≤ letterDistSq letters o k := by
    intro rest
    induction rest with
    | nil => intro best; exact ⟨le_refl _, by simp⟩
    | cons k rest ih =>
      intro best
      simp only [List.foldl_cons]
      obtain ⟨ih1, ih2⟩ := ih (if letterDistSq letters o k < letterDistSq letters o best
        then k else best)
      constructor
      · refine le_trans ih1 ?_
        split <;> rename_i hsp
        · exact le_of_lt hsp
        · exact le_refl _
      · intro k' hk'
        rcases List.mem_cons.mp hk' with hk' | hk'
        · subst hk'
          refine le_trans ih1 ?_
          split <;> rename_i hsp
          · exact le_refl _
          · exact le_of_not_lt hsp
        · exact ih2 k' hk'
  intro l j h
  cases l with
  | nil => simp [pickClosest] at h
  | cons i rest =>
    simp only [pickClosest, Option.some.injEq] at h
    subst h
    constructor
    · rcases haux rest i with h | h
      · rw [h]; simp
      · simp [h]
    · intro k hk
      rcases List.mem_cons.mp hk with hk | hk
      · rw [hk]; exact (hmin rest i).1
      · exact (hmin rest i).2 k hk

theorem V2.magSq_nonneg (a : V2) : 0 ≤ a.magSq :=
  add_nonneg (mul_self_nonneg _) (mul_self_nonneg _)

/-- `Math.sqrt` is monotone, so comparing Euclidean distances is the
same as comparing the squared distances the embedding computes with. -/
theorem dist_le_dist_iff (a b a' b' : V2) :
    V2.dist a b ≤ V2.dist a' b' ↔ V2.distSq a b ≤ V2.distSq a' b' := by
  unfold V2.dist V2.mag V2.distSq
  rw [Real.sqrt_le_sqrt_iff (by exact_mod_cast V2.magSq_nonneg _)]
  constructor
  · intro h
    exact_mod_cast h
  · intro h
    exact_mod_cast h

/-! ## The uniqueness invariant of recruitment -/

/-- One recruitment step keeps the balance between an external
occurrence count `A` (occurrences of each letter in the other, fixed
formations), the formation under construction, and the recruited
flags; it also preserves bounds, length, and the formation's
`launched` flag and id. -/
theorem recruitOne_inv (A : ℕ → ℕ) (ls : List RLetter)
    (f : WordFormation) (i : ℕ) (c : Char)
    (hInv : ∀ k, A k + f.letters.count k = flagN ls k)
    (hBnd : ∀ j ∈ f.letters, j < ls.length) :
    (∀ k, A k + (recruitOne ls f i c).2.letters.count k =
      flagN (recruitOne ls f i c).1 k) ∧
    (∀ j ∈ (recruitOne ls f i c).2.letters, j < (recruitOne ls f i c).1.length) ∧
    (recruitOne ls f i c).1.length = ls.length ∧
    (recruitOne ls f i c).2.launched = f.launched := by
  unfold recruitOne
  cases hp : pickClosest ls f.pos (availableFor ls c) with
  | none => exact ⟨hInv, hBnd, rfl, rfl⟩
  | some j =>
    simp only
    obtain ⟨hjmem, -⟩ := pickClosest_spec ls f.pos _ j hp
    obtain ⟨l, hl, hlc, hlr⟩ := (mem_availableFor ls c j).mp hjmem
    have hjlen : j < ls.length := (List.getElem?_eq_some_iff.mp hl).1
    have hflag0 : flagN ls j = 0 := by
      unfold flagN
      rw [hl]
      simp [hlr]
    have hA0 : A j = 0 ∧ f.letters.count j = 0 := by
      have h := hInv j
      rw [hflag0] at h
      omega
    refine ⟨?_, ?_, updateAt_length .., by trivial⟩
    · intro k
      rw [List.count_append]
      unfold flagN
      rw [updateAt_getElem]
      by_cases hkj : k = j
      · subst hkj
        rw [if_pos rfl, hl]
        simp [hA0.1, hA0.2]
      · rw [if_neg hkj]
        have h := hInv k
        unfold flagN at h
        simpa [hkj] using h
    · intro j' hj'
      rw [updateAt_length]
      rcases List.mem_append.mp hj' with hj' | hj'
      · exact hBnd j' hj'
      · rw [List.mem_singleton.mp hj']
        exact hjlen

/-- The whole recruitment loop keeps the same balance. -/
theorem formWordRec_inv (A : ℕ → ℕ) :
    ∀ (l : List (ℕ × Char)) (ls : List RLetter) (f : WordFormation),
      (∀ k, A k + f.letters.count k = flagN ls k) →
      (∀ j ∈ f.letters, j < ls.length) →
      (∀ k, A k + (formWordRec ls f l).2.letters.count k =
        flagN (formWordRec ls f l).1 k) ∧
      (∀ j ∈ (formWordRec ls f l).2.letters,
        j < (formWordRec ls f l).1.length) ∧
      (formWordRec ls f l).1.length = ls.length ∧
      (formWordRec ls f l).2.launched = f.launched := by
  intro l
  induction l with
  | nil =>
    intro ls f h1 h2
    exact ⟨h1, h2, rfl, rfl⟩
  | cons ic rest ih =>
    intro ls f h1 h2
    obtain ⟨i, c⟩ := ic
    simp only [formWordRec]
    obtain ⟨g1, g2, g3, g4⟩ := recruitOne_inv A ls f i c h1 h2
    obtain ⟨r1, r2, r3, r4⟩ :=
      ih (recruitOne ls f i c).1 (recruitOne ls f i c).2 g1 g2
    exact ⟨r1, r2, r3.trans g3, r4.trans g4⟩

/-- The uniqueness invariant (C4): every letter's recruited flag
agrees with its total occurrence count over the active formations
(0 when free, exactly 1 when recruited); all listed indices are in
range; no active formation is launched. -/
def RecruitInv (s : OceanState) : Prop :=
  (∀ i, occL s.activeWords i = flagN s.letters i) ∧
  (∀ f ∈ s.activeWords, ∀ j ∈ f.letters, j < s.letters.length) ∧
  (∀ f ∈ s.activeWords, f.launched = false)

theorem occL_append_single (ws : List WordFormation) (f : WordFormation)
    (i : ℕ) : occL (ws ++ [f]) i = occL ws i + f.letters.count i := by
  simp [occL]

theorem formWord_inv (s : OceanState) (w : List Char) (o : V2)
    (h : RecruitInv s) : RecruitInv (formWord s w o) := by
  obtain ⟨h1, h2, h3⟩ := h
  obtain ⟨g1, g2, g3, g4⟩ := formWordRec_inv (occL s.activeWords)
    ((w.map Char.toUpper).enum) s.letters
    ⟨w.map Char.toUpper, s.nextWordId, [], o, 0, false⟩
    (fun k => by simpa using h1 k) (by simp)
  unfold RecruitInv formWord
  simp only
  refine ⟨?_, ?_, ?_⟩
  · intro i
    rw [occL_append_single]
    have h := g1 i
    omega
  · intro f hf j hj
    rcases List.mem_append.mp hf with hf | hf
    · rw [g3]
      exact h2 f hf j hj
    · rw [List.mem_singleton.mp hf] at hj
      exact g2 j hj
  · intro f hf
    rcases List.mem_append.mp hf with hf | hf
    · exact h3 f hf
    · rw [List.mem_singleton.mp hf]
      exact g4

theorem foldClear_length (idxs : List ℕ) :
    ∀ ls : List RLetter,
      (idxs.foldl (fun a j => updateAt a j clearLetter) ls).length =
        ls.length := by
  induction idxs with
  | nil => intro ls; rfl
  | cons k idxs ih =>
    intro ls
    simp only [List.foldl_cons]
    rw [ih, updateAt_length]

theorem foldClear_flagN (idxs : List ℕ) :
    ∀ ls : List RLetter, (∀ j ∈ idxs, j < ls.length) → ∀ i,
      flagN (idxs.foldl (fun a j => updateAt a j clearLetter) ls) i =
        if i ∈ idxs then 0 else flagN ls i := by
  induction idxs with
  | nil =>
    intro ls _ i
    simp
  | cons k idxs ih =>
    intro ls h i
    simp only [List.foldl_cons]
    rw [ih (updateAt ls k clearLetter)
      (fun j hj => by rw [updateAt_length]; exact h j (by simp [hj]))]
    by_cases hik : i ∈ idxs
    · simp [hik]
    · rw [if_neg hik]
      by_cases hk : i = k
      · subst hk
        rw [if_pos (by simp)]
        unfold flagN
        rw [updateAt_getElem, if_pos rfl]
        have hilen : i < ls.length := h i (by simp)
        cases hsome : ls[i]? with
        | none =>
          exact absurd hsome (by simp [List.getElem?_eq_getElem hilen])
        | some l => simp [clearLetter]
      · rw [if_neg (by simp [hk, hik])]
        unfold flagN
        rw [updateAt_getElem, if_neg hk]

theorem tickFormations_spec (posOf : ℕ → V2) :
    ∀ (ws : List WordFormation) (ls : List RLetter) (A : ℕ → ℕ),
      (∀ i, A i + occL ws i = flagN ls i) →
      (∀ f ∈ ws, ∀ j ∈ f.letters, j < ls.length) →
      (∀ f ∈ ws, f.launched = false) →
      (∀ i, A i + occL (tickFormations posOf ws ls).2 i =
        flagN (tickFormations posOf ws ls).1 i) ∧
      (∀ f ∈ (tickFormations posOf ws ls).2, ∀ j ∈ f.letters,
        j < (tickFormations posOf ws ls).1.length) ∧
      (∀ f ∈ (tickFormations posOf ws ls).2, f.launched = false) ∧
      (tickFormations posOf ws ls).1.length = ls.length := by
  intro ws
  induction ws with
  | nil =>
    intro ls A h1 h2 h3
    refine ⟨fun i => by simpa [occL] using h1 i, by simp [tickFormations],
      by simp [tickFormations], rfl⟩
  | cons f rest ih =>
    intro ls A h1 h2 h3
    obtain ⟨i1, i2, i3, i4⟩ := ih ls (fun i => A i + f.letters.count i)
      (fun i => by
        show A i + f.letters.count i + occL rest i = flagN ls i
        have h := h1 i
        rw [occL_cons] at h
        omega)
      (fun g hg => h2 g (by simp [hg]))
      (fun g hg => h3 g (by simp [hg]))
    have i1' : ∀ i, A i + f.letters.count i +
        occL (tickFormations posOf rest ls).2 i =
        flagN (tickFormations posOf rest ls).1 i := fun i => i1 i
    have hfl : f.launched = false := h3 f (by simp)
    have hf1 : formUpdate posOf f =
        { f with
          pathProgress := f.pathProgress + PATH_SPEED
          pos := posOf f.id } := by
      simp [formUpdate, hfl]
    simp only [tickFormations, hf1]
    by_cases hsd : shouldDissolve
        { f with
          pathProgress := f.pathProgress + PATH_SPEED
          pos := posOf f.id }
    · rw [if_pos hsd]
      simp only [dissolveF, hfl, if_neg (by simp : ¬ (false = true)), if_pos rfl,
        if_true]
      have hbnd : ∀ j ∈ f.letters,
          j < (tickFormations posOf rest ls).1.length := by
        intro j hj
        rw [i4]
        exact h2 f (by simp) j hj
      refine ⟨?_, ?_, i3, ?_⟩
      · intro i
        rw [foldClear_flagN f.letters _ hbnd i]
        by_cases hmem : i ∈ f.letters
        · rw [if_pos hmem]
          have hcp : 0 < f.letters.count i := List.count_pos_iff.mpr hmem
          have hle := flagN_le_one (tickFormations posOf rest ls).1 i
          have h := i1' i
          omega
        · rw [if_neg hmem]
          have hc0 : f.letters.count i = 0 := List.count_eq_zero.mpr hmem
          have h := i1' i
          omega
      · intro g hg j hj
        rw [foldClear_length]
        exact i2 g hg j hj
      · rw [foldClear_length]
        exact i4
    · rw [if_neg hsd]
      simp only
      rw [if_neg (by simp [hfl])]
      refine ⟨?_, ?_, ?_, i4⟩
      · intro i
        rw [occL_cons]
        simp only
        have h := i1' i
        omega
      · intro g hg j hj
        rcases List.mem_cons.mp hg with hg | hg
        · subst hg
          simp only at hj
          rw [i4]
          exact h2 f (by simp) j hj
        · exact i2 g hg j hj
      · intro g hg
        rcases List.mem_cons.mp hg with hg | hg
        · subst hg
          simp [hfl]
        · exact i3 g hg

theorem oceanStep_inv (s : OceanState) (e : OceanEv)
    (h : RecruitInv s) (hfree : e.isPress = false) :
    RecruitInv (oceanStep s e) := by
  cases e with
  | form w o => exact formWord_inv s w o h
  | tick posOf =>
    obtain ⟨h1, h2, h3⟩ := h
    obtain ⟨g1, g2, g3, g4⟩ := tickFormations_spec posOf s.activeWords
      s.letters (fun _ => 0) (fun i => by simpa using h1 i) h2 h3
    exact ⟨fun i => by simpa using g1 i, g2, g3⟩
  | press m => simp [OceanEv.isPress] at hfree

theorem oceanRun_inv (evs : List OceanEv) :
    ∀ s, RecruitInv s → (∀ e ∈ evs, e.isPress = false) →
      RecruitInv (oceanRun s evs) := by
  induction evs with
  | nil => intro s h _; exact h
  | cons e evs ih =>
    intro s h hfree
    exact ih (oceanStep s e)
      (oceanStep_inv s e h (hfree e (by simp)))
      (fun e' he' => hfree e' (by simp [he']))

/-- C4 (amended): over every run of the modelled sketch events that
contains no mouse-press (letter drag), starting from a fresh ocean
(no letter recruited, no active formation), a particle's `recruited`
flag is true iff exactly one active word formation lists it among its
recruited letters — formations never share or double-list a letter,
and dissolving a formation clears the flag of every letter it listed
(the invariant holds again after the dissolving tick).
The claim as frozen is refuted by `c4_unique_press_counterexample`:
the letter-grab branch of `mousePressed` clears the letter's
`recruited` flag but leaves it listed in the formation, so after a
drag the flag is false while one active formation still lists the
letter. -/
theorem c4_recruited_unique_dragfree (s0 : OceanState)
    (evs : List OceanEv)
    (h0l : ∀ l ∈ s0.letters, l.recruited = false)
    (h0w : s0.activeWords = [])
    (hfree : ∀ e ∈ evs, e.isPress = false) :
    ∀ i, occCount (oceanRun s0 evs) i =
        (if recruitedFlag (oceanRun s0 evs) i then 1 else 0) ∧
      (recruitedFlag (oceanRun s0 evs) i = true ↔
        occCount (oceanRun s0 evs) i = 1) := by
  have hinv0 : RecruitInv s0 := by
    refine ⟨?_, ?_, ?_⟩
    · intro i
      rw [h0w]
      have hz : occL [] i = 0 := by simp [occL]
      rw [hz]
      unfold flagN
      cases h : s0.letters[i]? with
      | none => rfl
      | some l =>
        have hm := List.getElem?_mem h
        simp [h0l l hm]
    · rw [h0w]; simp
    · rw [h0w]; simp
  have hinv := oceanRun_inv evs s0 hinv0 hfree
  intro i
  have h1 := hinv.1 i
  have heq : occCount (oceanRun s0 evs) i =
      (if recruitedFlag (oceanRun s0 evs) i then 1 else 0) := by
    rw [occCount_eq_occL, h1, recruitedFlag_flagN]
  refine ⟨heq, ?_, ?_⟩
  · intro hf
    rw [heq, hf]
    rfl
  · intro hocc
    by_contra hf
    rw [Bool.not_eq_true] at hf
    rw [heq, hf] at hocc
    simp at hocc

/-- Witness for the drag-free uniqueness invariant: one `A` letter,
one `formWord("A")` call followed by a tick. -/
theorem c4_recruited_unique_dragfree_witness :
    occCount (oceanRun ⟨[⟨'A', ⟨0, 0⟩, ⟨0, 0⟩, false, none, -1, none, false⟩],
        [], 0⟩ [.form ['A'] ⟨0, 0⟩, .tick fun _ => ⟨0, 0⟩]) 0 =
      (if recruitedFlag (oceanRun ⟨[⟨'A', ⟨0, 0⟩, ⟨0, 0⟩, false, none, -1,
          none, false⟩], [], 0⟩
        [.form ['A'] ⟨0, 0⟩, .tick fun _ => ⟨0, 0⟩]) 0 then 1 else 0) :=
  (c4_recruited_unique_dragfree
    ⟨[⟨'A', ⟨0, 0⟩, ⟨0, 0⟩, false, none, -1, none, false⟩], [], 0⟩
    [.form ['A'] ⟨0, 0⟩, .tick fun _ => ⟨0, 0⟩]
    (by intro l hl; rw [List.mem_singleton.mp hl]) rfl
    (by
      intro e he
      simp only [List.mem_cons, List.not_mem_nil, or_false] at he
      rcases he with rfl | rfl <;> rfl) 0).1

/-- Counterexample to C4 as frozen: recruit the single `A` into a
word, then press the mouse on it.  `mousePressed` sets
`recruited = false` but does not remove the letter from the
formation's list, so afterwards the flag is false while exactly one
active formation still lists the letter — the claimed "if and only
if" fails. -/
theorem c4_unique_press_counterexample :
    recruitedFlag (oceanRun
        ⟨[⟨'A', ⟨0, 0⟩, ⟨0, 0⟩, false, none, -1, none, false⟩], [], 0⟩
        [.form ['A'] ⟨0, 0⟩, .press ⟨0, 0⟩]) 0 = false ∧
      occCount (oceanRun
        ⟨[⟨'A', ⟨0, 0⟩, ⟨0, 0⟩, false, none, -1, none, false⟩], [], 0⟩
        [.form ['A'] ⟨0, 0⟩, .press ⟨0, 0⟩]) 0 = 1 ∧
      ¬ (recruitedFlag (oceanRun
          ⟨[⟨'A', ⟨0, 0⟩, ⟨0, 0⟩, false, none, -1, none, false⟩], [], 0⟩
          [.form ['A'] ⟨0, 0⟩, .press ⟨0, 0⟩]) 0 = true ↔
        occCount (oceanRun
          ⟨[⟨'A', ⟨0, 0⟩, ⟨0, 0⟩, false, none, -1, none, false⟩], [], 0⟩
          [.form ['A'] ⟨0, 0⟩, .press ⟨0, 0⟩]) 0 = 1) := by
  have hA2 : Char.toUpper 'A' = 'A' := by decide
  norm_num [oceanRun, oceanStep, formWord, hA2, formWordRec, recruitOne,
    pickClosest, availableFor, letterDistSq, updateAt, mousePressed,
    firstGrabbed, occCount, occL, recruitedFlag, V2.distSq, V2.sub,
    V2.magSq, LETTER_RADIUS, List.range_succ, List.enum, List.enumFrom,
    List.find?, List.count_cons]

/-! ## C5: the recruitment step of formWord -/

/-- A formation gains exactly one letter per fillable slot. -/
theorem recruitOne_letters_length (ls : List RLetter) (f : WordFormation)
    (i : ℕ) (c : Char) :
    (recruitOne ls f i c).2.letters.length =
      f.letters.length + (if availableFor ls c = [] then 0 else 1) := by
  unfold recruitOne
  cases hp : pickClosest ls f.pos (availableFor ls c) with
  | none =>
    rw [if_pos ((pickClosest_none_iff ls f.pos _).mp hp)]
    simp
  | some j =>
    have hne : availableFor ls c ≠ [] := by
      intro h
      rw [h] at hp
      simp [pickClosest] at hp
    rw [if_neg hne]
    simp

theorem recruitOne_id (ls : List RLetter) (f : WordFormation) (i : ℕ)
    (c : Char) : (recruitOne ls f i c).2.id = f.id := by
  unfold recruitOne
  cases hp : pickClosest ls f.pos (availableFor ls c) <;> rfl

theorem formWordRec_id :
    ∀ (l : List (ℕ × Char)) (ls : List RLetter) (f : WordFormation),
      (formWordRec ls f l).2.id = f.id := by
  intro l
  induction l with
  | nil => intro ls f; rfl
  | cons ic rest ih =>
    intro ls f
    obtain ⟨i, c⟩ := ic
    simp only [formWordRec]
    rw [ih (recruitOne ls f i c).1 (recruitOne ls f i c).2,
      recruitOne_id]

theorem formWordRec_letters_length :
    ∀ (l : List (ℕ × Char)) (ls : List RLetter) (f : WordFormation),
      (formWordRec ls f l).2.letters.length ≤ f.letters.length + l.length := by
  intro l
  induction l with
  | nil => intro ls f; simp [formWordRec]
  | cons ic rest ih =>
    intro ls f
    obtain ⟨i, c⟩ := ic
    simp only [formWordRec]
    refine le_trans (ih (recruitOne ls f i c).1 (recruitOne ls f i c).2) ?_
    rw [recruitOne_letters_length]
    split <;> simp <;> omega

/-- C5: recruitment of one word.  (1) The candidate pool for a slot
with character `c` is exactly the set of in-range letters whose glyph
is `c` and whose `recruited` flag is false.  (2) If the pool is empty
the step leaves everything unchanged (non-fatal skip; the embedding
is a total function, matching that the source raises no exception);
otherwise a pool letter at minimum Euclidean distance from the
formation's origin is selected, marked recruited with this slot index
and the formation's id, and appended to the formation's letter list,
whose length therefore counts exactly the fillable slots.  (3) A
`formWord` call appends one formation carrying the fresh id, and its
recruited-letter count never exceeds the word length. -/
theorem c5_formWord_recruitment :
    (∀ (letters : List RLetter) (c : Char) (j : ℕ),
      j ∈ availableFor letters c ↔
        ∃ l, letters[j]? = some l ∧ l.char = c ∧ l.recruited = false) ∧
    (∀ (letters : List RLetter) (f : WordFormation) (i : ℕ) (c : Char),
      (availableFor letters c = [] →
        recruitOne letters f i c = (letters, f)) ∧
      (availableFor letters c ≠ [] →
        ∃ j lj, letters[j]? = some lj ∧ j ∈ availableFor letters c ∧
          (∀ k lk, k ∈ availableFor letters c → letters[k]? = some lk →
            V2.dist lj.pos f.pos ≤ V2.dist lk.pos f.pos) ∧
          recruitOne letters f i c =
            (updateAt letters j fun l =>
              { l with
                recruited := true
                wordId := some f.id
                targetIndex := (i : ℤ) },
             { f with letters := f.letters ++ [j] })) ∧
      (recruitOne letters f i c).2.letters.length =
        f.letters.length + (if availableFor letters c = [] then 0 else 1)) ∧
    (∀ (s : OceanState) (word : List Char) (origin : V2),
      ∃ F, (formWord s word origin).activeWords = s.activeWords ++ [F] ∧
        F.id = s.nextWordId ∧ F.letters.length ≤ word.length) := by
  refine ⟨mem_availableFor, ?_, ?_⟩
  · intro letters f i c
    refine ⟨?_, ?_, recruitOne_letters_length letters f i c⟩
    · intro hav
      unfold recruitOne
      rw [hav]
      rfl
    · intro hne
      cases hp : pickClosest letters f.pos (availableFor letters c) with
      | none => exact absurd ((pickClosest_none_iff _ _ _).mp hp) hne
      | some j =>
        obtain ⟨hjmem, hjmin⟩ := pickClosest_spec letters f.pos _ j hp
        obtain ⟨lj, hlj, -, -⟩ := (mem_availableFor letters c j).mp hjmem
        refine ⟨j, lj, hlj, hjmem, ?_, ?_⟩
        · intro k lk hk hlk
          rw [dist_le_dist_iff]
          have h := hjmin k hk
          unfold letterDistSq at h
          rw [hlj, hlk] at h
          exact h
        · unfold recruitOne
          rw [hp]
  · intro s word origin
    refine ⟨(formWordRec s.letters
      ⟨word.map Char.toUpper, s.nextWordId, [], origin, 0, false⟩
      (word.map Char.toUpper).enum).2, rfl, ?_, ?_⟩
    · have h := formWordRec_id (word.map Char.toUpper).enum s.letters
        ⟨word.map Char.toUpper, s.nextWordId, [], origin, 0, false⟩
      exact h
    · have h := formWordRec_letters_length ((word.map Char.toUpper).enum)
        s.letters ⟨word.map Char.toUpper, s.nextWordId, [], origin, 0, false⟩
      simpa using h

/-- Witness for C5 at a concrete input: recruiting a `B` slot from an
ocean holding only one `A` skips the slot and changes nothing. -/
theorem c5_formWord_recruitment_witness :
    recruitOne [⟨'A', ⟨3, 4⟩, ⟨0, 0⟩, false, none, -1, none, false⟩]
        ⟨['B'], 0, [], ⟨0, 0⟩, 0, false⟩ 0 'B' =
      ([⟨'A', ⟨3, 4⟩, ⟨0, 0⟩, false, none, -1, none, false⟩],
        ⟨['B'], 0, [], ⟨0, 0⟩, 0, false⟩) :=
  (c5_formWord_recruitment.2.1
    [⟨'A', ⟨3, 4⟩, ⟨0, 0⟩, false, none, -1, none, false⟩]
    ⟨['B'], 0, [], ⟨0, 0⟩, 0, false⟩ 0 'B').1
    (by decide)

/-! ## C6: dissolve -/

/-- Per-index effect of the release loop of `dissolve()` (the listed
indices are pairwise distinct, as `formWord` guarantees). -/
theorem foldClear_getElem (idxs : List ℕ) :
    idxs.Nodup →
      ∀ (ls : List RLetter) (j : ℕ),
        (idxs.foldl (fun a k => updateAt a k clearLetter) ls)[j]? =
          if j ∈ idxs then Option.map clearLetter ls[j]? else ls[j]? := by
  induction idxs with
  | nil =>
    intro _ ls j
    simp
  | cons k idxs ih =>
    intro hnd ls j
    have hk : k ∉ idxs := (List.nodup_cons.mp hnd).1
    have hnd' : idxs.Nodup := (List.nodup_cons.mp hnd).2
    simp only [List.foldl_cons]
    rw [ih hnd' (updateAt ls k clearLetter) j]
    by_cases hj : j ∈ idxs
    · rw [if_pos hj, if_pos (by simp [hj])]
      have hjk : j ≠ k := fun e => hk (e ▸ hj)
      rw [updateAt_getElem, if_neg hjk]
    · rw [if_neg hj]
      by_cases hjk : j = k
      · subst hjk
        rw [if_pos (by simp), updateAt_getElem, if_pos rfl]
      · rw [if_neg (by simp [hjk, hj]), updateAt_getElem, if_neg hjk]

/-- C6: `dissolve()` is idempotent and releases all recruited
letters.  First conjunct: a second `dissolve()` on the result of a
first changes neither the letters nor the formation.  Second
conjunct: on a not-yet-launched formation whose letter list is
duplicate-free, one call marks the formation launched and maps every
listed letter through `clearLetter` (recruited flag cleared, word
reference and target position cleared, slot index reset to −1,
velocity multiplied by 0.3) while letters not listed are untouched. -/
theorem c6_dissolve_idempotent :
    (∀ (ls : List RLetter) (f : WordFormation),
      dissolveF (dissolveF ls f).1 (dissolveF ls f).2 = dissolveF ls f) ∧
    (∀ (ls : List RLetter) (f : WordFormation),
      f.launched = false → f.letters.Nodup →
      (dissolveF ls f).2 = { f with launched := true } ∧
      (∀ j ∈ f.letters,
        (dissolveF ls f).1[j]? = Option.map clearLetter ls[j]?) ∧
      (∀ j, j ∉ f.letters → (dissolveF ls f).1[j]? = ls[j]?)) := by
  constructor
  · intro ls f
    by_cases hl : f.launched = true
    · unfold dissolveF
      rw [if_pos hl]
      simp only
      rw [if_pos hl]
    · unfold dissolveF
      rw [if_neg hl]
      simp only
      rw [if_true]
  · intro ls f hl hnd
    unfold dissolveF
    rw [if_neg (by simp [hl])]
    refine ⟨rfl, ?_, ?_⟩
    · intro j hj
      simp only
      rw [foldClear_getElem f.letters hnd ls j, if_pos hj]
    · intro j hj
      simp only
      rw [foldClear_getElem f.letters hnd ls j, if_neg hj]

/-- Witness for C6 at a concrete input: a formation holding the one
recruited letter, dissolved twice. -/
theorem c6_dissolve_idempotent_witness :
    dissolveF
        (dissolveF [⟨'A', ⟨1, 2⟩, ⟨2, 4⟩, true, some 0, 0, none, false⟩]
          ⟨['A'], 0, [0], ⟨0, 0⟩, 0, false⟩).1
        (dissolveF [⟨'A', ⟨1, 2⟩, ⟨2, 4⟩, true, some 0, 0, none, false⟩]
          ⟨['A'], 0, [0], ⟨0, 0⟩, 0, false⟩).2 =
      dissolveF [⟨'A', ⟨1, 2⟩, ⟨2, 4⟩, true, some 0, 0, none, false⟩]
        ⟨['A'], 0, [0], ⟨0, 0⟩, 0, false⟩ ∧
    (dissolveF [⟨'A', ⟨1, 2⟩, ⟨2, 4⟩, true, some 0, 0, none, false⟩]
        ⟨['A'], 0, [0], ⟨0, 0⟩, 0, false⟩).2 =
      ⟨['A'], 0, [0], ⟨0, 0⟩, 0, true⟩ :=
  ⟨c6_dissolve_idempotent.1
    [⟨'A', ⟨1, 2⟩, ⟨2, 4⟩, true, some 0, 0, none, false⟩]
    ⟨['A'], 0, [0], ⟨0, 0⟩, 0, false⟩,
   (c6_dissolve_idempotent.2
    [⟨'A', ⟨1, 2⟩, ⟨2, 4⟩, true, some 0, 0, none, false⟩]
    ⟨['A'], 0, [0], ⟨0, 0⟩, 0, false⟩ rfl (by simp)).1⟩

/-! ## Physics: the force pass and the integrator

Real-valued embedding of `Letter.applyNeighborForces` and
`Letter.update` of the current sketch, and of the collision-torque
computation of the legacy `Letter.repel`.  `Math.random()` draws are
modelled by an explicit stream `rand : ℕ → ℝ` consumed in call order;
the neighbor list is the quadtree query result (the index itself is
verified separately above).  In the source the collision torque is
added to `this.angularAcc` inside the loop while the accumulated
forces are applied after it; the fold below accumulates both and adds
them at the end, which is the same total by commutativity of
addition. -/

/-- Ocean physics constants of the current sketch. -/
noncomputable def REPULSION_RADIUS : ℝ := 20

noncomputable def REPULSION_RADIUS_SQ : ℝ := REPULSION_RADIUS * REPULSION_RADIUS

noncomputable def REPULSION_STRENGTH : ℝ := 10.0

noncomputable def ATTRACTION_MIN : ℝ := 50

noncomputable def ATTRACTION_MIN_SQ : ℝ := ATTRACTION_MIN * ATTRACTION_MIN

noncomputable def ATTRACTION_MAX : ℝ := 150

noncomputable def ATTRACTION_MAX_SQ : ℝ := ATTRACTION_MAX * ATTRACTION_MAX

noncomputable def ATTRACTION_STRENGTH : ℝ := 0.05

noncomputable def COLLISION_SPEED_THRESHOLD : ℝ := 0.2

noncomputable def COLLISION_SPIN_FACTOR : ℝ := 1

noncomputable def MAX_LETTER_SPEED : ℝ := 3

noncomputable def SPEED_DECELERATION : ℝ := 0.3

/-- Legacy constants of the older `Letter.repel` sketch. -/
noncomputable def LEGACY_COLLISION_SPEED_THRESHOLD : ℝ := 0.5

noncomputable def LEGACY_COLLISION_SPIN_FACTOR : ℝ := 0.08

/-- `mass = 1`. -/
noncomputable def MASS : ℝ := 1

/-- `size = 24`, `radius = size / 2`. -/
noncomputable def PSIZE : ℝ := 24

noncomputable def PRADIUS : ℝ := PSIZE / 2

/-- `momentOfInertia = mass * radius * radius`. -/
noncomputable def MOMENT_OF_INERTIA : ℝ := MASS * PRADIUS * PRADIUS

/-- The physics-relevant state of one `Letter`; `oid` stands for
JavaScript object identity (the `other === this` test). -/
structure PLetter where
  oid : ℕ
  pos : ℝ × ℝ
  vel : ℝ × ℝ
  acc : ℝ × ℝ
  angle : ℝ
  angularVel : ℝ
  angularAcc : ℝ
  recruited : Bool
  dragging : Bool

/-- Component-wise vector sum. -/
def addV (a b : ℝ × ℝ) : ℝ × ℝ := (a.1 + b.1, a.2 + b.2)

/-- Squared magnitude of a real vector (p5 `magSq`). -/
def magSqR (v : ℝ × ℝ) : ℝ := v.1 * v.1 + v.2 * v.2

/-- Magnitude (p5 `mag`). -/
noncomputable def magR2 (v : ℝ × ℝ) : ℝ := Real.sqrt (magSqR v)

/-- `applyForce(force)`: accumulate `force / mass` into `acc`. -/
noncomputable def applyForceP (self : PLetter) (f : ℝ × ℝ) : PLetter :=
  { self with acc := (self.acc.1 + f.1 / MASS, self.acc.2 + f.2 / MASS) }

/-- `applyTorque(torque)`: accumulate `torque / momentOfInertia`. -/
noncomputable def applyTorqueP (self : PLetter) (t : ℝ) : PLetter :=
  { self with angularAcc := self.angularAcc + t / MOMENT_OF_INERTIA }

/-- Accumulator of the `applyNeighborForces` loop: the two force
accumulators with their contribution counts, the torque already
applied to `angularAcc` (divided by the moment of inertia), and the
position in the random stream. -/
structure NFState where
  repulsionForce : ℝ × ℝ
  attractionForce : ℝ × ℝ
  repulsionCount : ℕ
  attractionCount : ℕ
  angularAccAdd : ℝ
  rIdx : ℕ

/-- The initial accumulator. -/
def nfInit : NFState := ⟨(0, 0), (0, 0), 0, 0, 0, 0⟩

open scoped Classical in
/-- The body of the neighbor loop of `applyNeighborForces`: skip
`other === this`; inside the repulsion radius (squared-distance
pre-filter, strict `0 < dSq` guard) accumulate the normalized
repulsion contribution and, when the relative speed exceeds the
collision threshold (squared comparison), apply the collision torque
with its two random draws; otherwise, in the attraction band,
accumulate the fixed-magnitude attraction contribution. -/
noncomputable def nfStep (self : PLetter) (rand : ℕ → ℝ) (st : NFState)
    (other : PLetter) : NFState :=
  if other.oid = self.oid then st
  else
    let dx := self.pos.1 - other.pos.1
    let dy := self.pos.2 - other.pos.2
    let dSq := dx * dx + dy * dy
    if 0 < dSq ∧ dSq < REPULSION_RADIUS_SQ then
      let d := Real.sqrt dSq
      let forceMag := REPULSION_STRENGTH / d
      let relVelX := self.vel.1 - other.vel.1
      let relVelY := self.vel.2 - other.vel.2
      let impactSpeedSq := relVelX * relVelX + relVelY * relVelY
      if impactSpeedSq >
          COLLISION_SPEED_THRESHOLD * COLLISION_SPEED_THRESHOLD then
        let impactSpeed := Real.sqrt impactSpeedSq
        let spinDiff := other.angularVel - self.angularVel
        let transferFactor := impactSpeed * 0.12
        let spinTransfer := spinDiff * transferFactor
        let impactRandomSpin :=
          (rand st.rIdx - 0.5) * impactSpeed * COLLISION_SPIN_FACTOR * 1.5
        let spinSimilarity := 1.0 / (1.0 + |spinDiff| * 5)
        let similarityBonus :=
          (rand (st.rIdx + 1) - 0.5) * impactSpeed * COLLISION_SPIN_FACTOR *
            spinSimilarity
        { st with
          repulsionForce := (st.repulsionForce.1 + dx / d * forceMag,
            st.repulsionForce.2 + dy / d * forceMag)
          repulsionCount := st.repulsionCount + 1
          angularAccAdd := st.angularAccAdd +
            (spinTransfer + impactRandomSpin + similarityBonus) /
              MOMENT_OF_INERTIA
          rIdx := st.rIdx + 2 }
      else
        { st with
          repulsionForce := (st.repulsionForce.1 + dx / d * forceMag,
            st.repulsionForce.2 + dy / d * forceMag)
          repulsionCount := st.repulsionCount + 1 }
    else
      if ATTRACTION_MIN_SQ < dSq ∧ dSq < ATTRACTION_MAX_SQ then
        { st with
          attractionForce := (st.attractionForce.1 +
              (-dx) / Real.sqrt dSq * ATTRACTION_STRENGTH,
            st.attractionForce.2 +
              (-dy) / Real.sqrt dSq * ATTRACTION_STRENGTH)
          attractionCount := st.attractionCount + 1 }
      else st

/-- `applyNeighborForces(quadtree)` given the list of neighbors the
range query returned: no-op while dragging, else run the loop and
apply the averaged repulsion and attraction forces (each divided by
its contribution count when nonzero). -/
noncomputable def applyNeighborForces (self : PLetter)
    (neighbors : List PLetter) (rand : ℕ → ℝ) : PLetter :=
  if self.dragging then self
  else
    let st := neighbors.foldl (nfStep self rand) nfInit
    let self1 := { self with
      angularAcc := self.angularAcc + st.angularAccAdd }
    let self2 :=
      if 0 < st.repulsionCount then
        applyForceP self1 (st.repulsionForce.1 / (st.repulsionCount : ℝ),
          st.repulsionForce.2 / (st.repulsionCount : ℝ))
      else self1
    if 0 < st.attractionCount then
      applyForceP self2 (st.attractionForce.1 / (st.attractionCount : ℝ),
        st.attractionForce.2 / (st.attractionCount : ℝ))
    else self2

/-- `Letter.update()`: integrate the linear motion (unless dragging)
with the soft speed limit — `setMag(newSpeed)` scales the velocity by
`newSpeed / currentSpeed` — then reset `acc`, and integrate the
rotational motion with the idle spin noise draw (skipped while
recruited). -/
noncomputable def updateLetter (self : PLetter) (spinNoise : ℝ) : PLetter :=
  let self1 :=
    if self.dragging then self
    else
      let vel1 := addV self.vel self.acc
      let currentSpeedSq := magSqR vel1
      let vel2 :=
        if currentSpeedSq > MAX_LETTER_SPEED * MAX_LETTER_SPEED then
          let currentSpeed := Real.sqrt currentSpeedSq
          let excess := currentSpeed - MAX_LETTER_SPEED
          let newSpeed := currentSpeed - excess * SPEED_DECELERATION
          ((newSpeed / currentSpeed) * vel1.1, (newSpeed / currentSpeed) * vel1.2)
        else vel1
      { self with
        vel := vel2
        pos := addV self.pos vel2 }
  let self2 := { self1 with acc := (0, 0) }
  let av1 := self2.angularVel + self2.angularAcc
  let av2 := if self2.recruited then av1 else av1 + spinNoise
  { self2 with
    angularVel := av2
    angle := self2.angle + av2
    angularAcc := 0 }

/-! ## C8: degenerate geometry -/

/-- A pair at distance exactly zero contributes nothing: the loop
body leaves the whole accumulator unchanged — no repulsion, no
attraction, no torque, and no random draw — because `dSq > 0` fails
and the attraction band `dSq > attractionMinSq` fails as well. -/
theorem nfStep_coincident (self other : PLetter) (rand : ℕ → ℝ)
    (st : NFState) (h : other.pos = self.pos) :
    nfStep self rand st other = st := by
  by_cases hid : other.oid = self.oid
  · simp only [nfStep, if_pos hid]
  · simp only [nfStep, if_neg hid, h, sub_self]
    rw [if_neg (by norm_num), if_neg (by
      norm_num [ATTRACTION_MIN_SQ, ATTRACTION_MIN])]

/-- C8: degenerate-geometry safety.  The force pass is a total
function of any particle configuration (it cannot throw), and an
exactly coincident pair is skipped outright: the loop body returns
the accumulator unchanged, so adding a coincident particle to the
neighbor list leaves the whole force pass result — forces,
attraction, collision torque, and random stream position —
unchanged, and no division by zero ever enters the accumulated
state. -/
theorem c8_coincident_pair_skipped :
    (∀ (self other : PLetter) (rand : ℕ → ℝ) (st : NFState),
      other.pos = self.pos → nfStep self rand st other = st) ∧
    (∀ (self : PLetter) (ns : List PLetter) (other : PLetter)
      (rand : ℕ → ℝ), other.pos = self.pos →
        applyNeighborForces self (ns ++ [other]) rand =
          applyNeighborForces self ns rand) := by
  refine ⟨nfStep_coincident, ?_⟩
  intro self ns other rand h
  unfold applyNeighborForces
  by_cases hd : self.dragging = true
  · rw [if_pos hd, if_pos hd]
  · rw [if_neg hd, if_neg hd]
    rw [List.foldl_append]
    simp only [List.foldl_cons, List.foldl_nil]
    rw [nfStep_coincident self other rand _ h]

/-- Witness for C8: a concrete coincident pair (distinct particles at
the same position) leaves a concrete accumulator untouched. -/
theorem c8_coincident_pair_skipped_witness :
    nfStep ⟨0, (1, 2), (3, 0), (0, 0), 0, 0, 0, false, false⟩
        (fun _ => 1/2) nfInit
        ⟨1, (1, 2), (0, 0), (0, 0), 0, 5, 0, false, false⟩ = nfInit :=
  c8_coincident_pair_skipped.1
    ⟨0, (1, 2), (3, 0), (0, 0), 0, 0, 0, false, false⟩
    ⟨1, (1, 2), (0, 0), (0, 0), 0, 5, 0, false, false⟩
    (fun _ => 1/2) nfInit rfl

/-! ## C2: soft speed limit -/

/-- C2: the soft speed limit of `Letter.update()`.  For a particle
that is not being dragged, if the speed `s` of `vel + acc` (the
velocity after adding the accumulated acceleration) exceeds
`maxSpeed`, then after `update()` the speed equals
`s − (s − maxSpeed) · decelFactor`, which lies strictly between
`maxSpeed` and `s` — a gradual deceleration, never an instant clamp
to `maxSpeed`.  (The code compares squared magnitudes; the squared
test fires exactly when `s > maxSpeed`.) -/
theorem c2_soft_speed_limit (self : PLetter) (spinNoise : ℝ)
    (hd : self.dragging = false)
    (hs : MAX_LETTER_SPEED < magR2 (addV self.vel self.acc)) :
    magR2 (updateLetter self spinNoise).vel =
      magR2 (addV self.vel self.acc) -
        (magR2 (addV self.vel self.acc) - MAX_LETTER_SPEED) *
          SPEED_DECELERATION ∧
    MAX_LETTER_SPEED <
      magR2 (addV self.vel self.acc) -
        (magR2 (addV self.vel self.acc) - MAX_LETTER_SPEED) *
          SPEED_DECELERATION ∧
    magR2 (addV self.vel self.acc) -
        (magR2 (addV self.vel self.acc) - MAX_LETTER_SPEED) *
          SPEED_DECELERATION <
      magR2 (addV self.vel self.acc) := by
  have hsqnn : 0 ≤ magSqR (addV self.vel self.acc) :=
    add_nonneg (mul_self_nonneg _) (mul_self_nonneg _)
  have hs' : MAX_LETTER_SPEED <
      Real.sqrt (magSqR (addV self.vel self.acc)) := hs
  have hsq_gt : magSqR (addV self.vel self.acc) >
      MAX_LETTER_SPEED * MAX_LETTER_SPEED := by
    have h1 := mul_self_lt_mul_self
      (by norm_num [MAX_LETTER_SPEED] : (0 : ℝ) ≤ MAX_LETTER_SPEED) hs'
    rw [Real.mul_self_sqrt hsqnn] at h1
    exact h1
  have hspos : 0 < Real.sqrt (magSqR (addV self.vel self.acc)) := by
    refine lt_of_le_of_lt ?_ hs'
    norm_num [MAX_LETTER_SPEED]
  have hnew : 0 < Real.sqrt (magSqR (addV self.vel self.acc)) -
      (Real.sqrt (magSqR (addV self.vel self.acc)) - MAX_LETTER_SPEED) *
        SPEED_DECELERATION := by
    norm_num [MAX_LETTER_SPEED, SPEED_DECELERATION] at hs' ⊢
    nlinarith
  refine ⟨?_, ?_, ?_⟩
  · show Real.sqrt (magSqR (updateLetter self spinNoise).vel) = _
    simp only [updateLetter, hd, Bool.false_eq_true, if_false, if_pos hsq_gt]
    have hmag_scale : ∀ (c : ℝ) (v : ℝ × ℝ),
        magSqR (c * v.1, c * v.2) = c ^ 2 * magSqR v := by
      intro c v
      unfold magSqR
      ring
    rw [hmag_scale]
    rw [Real.sqrt_mul (sq_nonneg _), Real.sqrt_sq_eq_abs]
    rw [abs_of_nonneg (div_nonneg (le_of_lt hnew) (Real.sqrt_nonneg _))]
    rw [div_mul_cancel₀ _ (ne_of_gt hspos)]
    rfl
  · norm_num [MAX_LETTER_SPEED, SPEED_DECELERATION] at hs ⊢
    nlinarith
  · norm_num [MAX_LETTER_SPEED, SPEED_DECELERATION] at hs ⊢
    nlinarith

/-- Witness for C2: velocity `(3, 0)` plus acceleration `(0, 4)`
gives speed 5 > 3; after `update()` the speed is 5 − 2·0.3 = 4.4,
strictly between 3 and 5. -/
theorem c2_soft_speed_limit_witness :
    MAX_LETTER_SPEED <
      magR2 (addV ((3 : ℝ), (0 : ℝ)) ((0 : ℝ), (4 : ℝ))) ∧
    magR2 (updateLetter
        ⟨0, (0, 0), (3, 0), (0, 4), 0, 0, 0, false, false⟩ 0).vel =
      magR2 (addV ((3 : ℝ), (0 : ℝ)) ((0 : ℝ), (4 : ℝ))) -
        (magR2 (addV ((3 : ℝ), (0 : ℝ)) ((0 : ℝ), (4 : ℝ))) -
          MAX_LETTER_SPEED) * SPEED_DECELERATION := by
  have h5 : magR2 (addV ((3 : ℝ), (0 : ℝ)) ((0 : ℝ), (4 : ℝ))) = 5 := by
    unfold magR2 magSqR addV
    norm_num
    rw [show (25 : ℝ) = 5 ^ 2 by norm_num,
      Real.sqrt_sq (by norm_num : (0 : ℝ) ≤ 5)]
  have hhyp : MAX_LETTER_SPEED <
      magR2 (addV ((3 : ℝ), (0 : ℝ)) ((0 : ℝ), (4 : ℝ))) := by
    rw [h5]
    norm_num [MAX_LETTER_SPEED]
  exact ⟨hhyp, (c2_soft_speed_limit
    ⟨0, (0, 0), (3, 0), (0, 4), 0, 0, 0, false, false⟩ 0 rfl hhyp).1⟩

/-! ## C1: repulsion contributions and how they are applied -/

/-- Squared distance between two particle centers
(`dSq = dx*dx + dy*dy`). -/
noncomputable def dSqOf (self other : PLetter) : ℝ :=
  (self.pos.1 - other.pos.1) * (self.pos.1 - other.pos.1) +
    (self.pos.2 - other.pos.2) * (self.pos.2 - other.pos.2)

/-- The loop takes the repulsion branch for `other`: not `this`
itself, and `0 < dSq < repulsionRadiusSq`. -/
def inRepulsionRange (self other : PLetter) : Prop :=
  other.oid ≠ self.oid ∧ 0 < dSqOf self other ∧
    dSqOf self other < REPULSION_RADIUS_SQ

/-- The loop takes the attraction branch for `other`: not `this`, the
repulsion test failed, and `attractionMinSq < dSq < attractionMaxSq`. -/
def inAttractionRange (self other : PLetter) : Prop :=
  other.oid ≠ self.oid ∧
    ¬(0 < dSqOf self other ∧ dSqOf self other < REPULSION_RADIUS_SQ) ∧
    ATTRACTION_MIN_SQ < dSqOf self other ∧
    dSqOf self other < ATTRACTION_MAX_SQ

/-- Per-neighbor repulsion contribution accumulated by the loop:
`((dx / d) * forceMag, (dy / d) * forceMag)` with `d = Math.sqrt(dSq)`
and `forceMag = repulsionStrength / d`. -/
noncomputable def repulsionContrib (self other : PLetter) : ℝ × ℝ :=
  let dx := self.pos.1 - other.pos.1
  let dy := self.pos.2 - other.pos.2
  let d := Real.sqrt (dSqOf self other)
  let forceMag := REPULSION_STRENGTH / d
  (dx / d * forceMag, dy / d * forceMag)

open scoped Classical in
/-- Accumulated repulsion force over a neighbor list, from a given
starting accumulator. -/
noncomputable def repulsionSumFrom (self : PLetter) (ns : List PLetter)
    (a : ℝ × ℝ) : ℝ × ℝ :=
  ns.foldl (fun acc o =>
    if inRepulsionRange self o then addV acc (repulsionContrib self o)
    else acc) a

/-- Accumulated repulsion force over a neighbor list: the sum of the
per-neighbor contributions. -/
noncomputable def repulsionSum (self : PLetter) (ns : List PLetter) : ℝ × ℝ :=
  repulsionSumFrom self ns (0, 0)

open scoped Classical in
/-- Repulsion contribution count over a neighbor list, from a given
starting count. -/
noncomputable def repulsionNumFrom (self : PLetter) (ns : List PLetter)
    (k : ℕ) : ℕ :=
  ns.foldl (fun n o => if inRepulsionRange self o then n + 1 else n) k

/-- Number of neighbors in repulsion range (`repulsionCount`). -/
noncomputable def repulsionNum (self : PLetter) (ns : List PLetter) : ℕ :=
  repulsionNumFrom self ns 0

open scoped Classical in
/-- Attraction contribution count over a neighbor list, from a given
starting count. -/
noncomputable def attractionNumFrom (self : PLetter) (ns : List PLetter)
    (k : ℕ) : ℕ :=
  ns.foldl (fun n o => if inAttractionRange self o then n + 1 else n) k

/-- Number of neighbors in the attraction band (`attractionCount`). -/
noncomputable def attractionNum (self : PLetter) (ns : List PLetter) : ℕ :=
  attractionNumFrom self ns 0

/-- Adding the zero vector on the left is the identity. -/
theorem addV_zero_left (v : ℝ × ℝ) : addV (0, 0) v = v := by
  simp [addV]

/-- Magnitude of a scaled pair, for a nonnegative scale factor. -/
theorem magR2_smul_pair (c a b : ℝ) (hc : 0 ≤ c) :
    magR2 (c * a, c * b) = c * Real.sqrt (a * a + b * b) := by
  simp only [magR2, magSqR]
  rw [show c * a * (c * a) + c * b * (c * b) =
    c ^ 2 * (a * a + b * b) by ring]
  rw [Real.sqrt_mul (sq_nonneg c), Real.sqrt_sq_eq_abs, abs_of_nonneg hc]

open scoped Classical in
/-- One loop step, seen through the force accumulators: repulsion
force and count grow by the per-neighbor contribution exactly on the
repulsion branch, and the attraction count grows exactly on the
attraction branch. -/
theorem nfStep_fields (self : PLetter) (rand : ℕ → ℝ) (st : NFState)
    (other : PLetter) :
    (nfStep self rand st other).repulsionForce =
      (if inRepulsionRange self other then
        addV st.repulsionForce (repulsionContrib self other)
      else st.repulsionForce) ∧
    (nfStep self rand st other).repulsionCount =
      (if inRepulsionRange self other then st.repulsionCount + 1
      else st.repulsionCount) ∧
    (nfStep self rand st other).attractionCount =
      (if inAttractionRange self other then st.attractionCount + 1
      else st.attractionCount) := by
  by_cases hid : other.oid = self.oid
  · have hnr : ¬ inRepulsionRange self other := fun hc => hc.1 hid
    have hna : ¬ inAttractionRange self other := fun hc => hc.1 hid
    rw [if_neg hnr, if_neg hnr, if_neg hna]
    simp only [nfStep, if_pos hid]
    simp
  · simp only [nfStep, if_neg hid]
    rw [show (self.pos.1 - other.pos.1) * (self.pos.1 - other.pos.1) +
        (self.pos.2 - other.pos.2) * (self.pos.2 - other.pos.2) =
        dSqOf self other from rfl]
    by_cases hrep : 0 < dSqOf self other ∧
        dSqOf self other < REPULSION_RADIUS_SQ
    · rw [if_pos hrep]
      have hir : inRepulsionRange self other := ⟨hid, hrep.1, hrep.2⟩
      have hna : ¬ inAttractionRange self other := fun hc => hc.2.1 hrep
      rw [if_pos hir, if_pos hir, if_neg hna]
      by_cases himp :
          (self.vel.1 - other.vel.1) * (self.vel.1 - other.vel.1) +
            (self.vel.2 - other.vel.2) * (self.vel.2 - other.vel.2) >
            COLLISION_SPEED_THRESHOLD * COLLISION_SPEED_THRESHOLD
      · rw [if_pos himp]
        exact ⟨rfl, rfl, rfl⟩
      · rw [if_neg himp]
        exact ⟨rfl, rfl, rfl⟩
    · rw [if_neg hrep]
      have hnr : ¬ inRepulsionRange self other :=
        fun hc => hrep ⟨hc.2.1, hc.2.2⟩
      rw [if_neg hnr, if_neg hnr]
      by_cases hat : ATTRACTION_MIN_SQ < dSqOf self other ∧
          dSqOf self other < ATTRACTION_MAX_SQ
      · rw [if_pos hat,
          if_pos (show inAttractionRange self other from
            ⟨hid, hrep, hat.1, hat.2⟩)]
        exact ⟨rfl, rfl, rfl⟩
      · rw [if_neg hat,
          if_neg (show ¬ inAttractionRange self other from
            fun hc => hat ⟨hc.2.2.1, hc.2.2.2⟩)]
        exact ⟨rfl, rfl, rfl⟩

/-- Fold form of the force-accumulation loop: the repulsion force
accumulator is the running sum of contributions, and the two counts
are the running counts. -/
theorem foldl_nfStep_fields (self : PLetter) (rand : ℕ → ℝ) :
    ∀ (ns : List PLetter) (st : NFState),
      (ns.foldl (nfStep self rand) st).repulsionForce =
        repulsionSumFrom self ns st.repulsionForce ∧
      (ns.foldl (nfStep self rand) st).repulsionCount =
        repulsionNumFrom self ns st.repulsionCount ∧
      (ns.foldl (nfStep self rand) st).attractionCount =
        attractionNumFrom self ns st.attractionCount := by
  intro ns
  induction ns with
  | nil =>
    intro st
    exact ⟨rfl, rfl, rfl⟩
  | cons o os ih =>
    intro st
    rw [List.foldl_cons]
    obtain ⟨h1, h2, h3⟩ := nfStep_fields self rand st o
    obtain ⟨i1, i2, i3⟩ := ih (nfStep self rand st o)
    refine ⟨?_, ?_, ?_⟩
    · rw [i1, h1]
      rfl
    · rw [i2, h2]
      rfl
    · rw [i3, h3]
      rfl

/-- Starting the repulsion-sum fold from `a` offsets the result by
`a`. -/
theorem repulsionSumFrom_shift (self : PLetter) (ns : List PLetter) :
    ∀ a, repulsionSumFrom self ns a = addV a (repulsionSum self ns) := by
  classical
  induction ns with
  | nil =>
    intro a
    simp [repulsionSumFrom, repulsionSum, addV]
  | cons o os ih =>
    intro a
    have hcons : ∀ b, repulsionSumFrom self (o :: os) b =
        repulsionSumFrom self os
          (if inRepulsionRange self o then addV b (repulsionContrib self o)
          else b) := fun b => rfl
    rw [show repulsionSum self (o :: os) =
      repulsionSumFrom self (o :: os) (0, 0) from rfl]
    rw [hcons, hcons, ih, ih]
    by_cases hc : inRepulsionRange self o
    · rw [if_pos hc, if_pos hc]
      simp only [addV, Prod.mk.injEq]
      constructor <;> ring
    · rw [if_neg hc, if_neg hc]
      simp only [addV, Prod.mk.injEq]
      constructor <;> ring

/-- Starting the repulsion-count fold from `k` offsets the result by
`k`. -/
theorem repulsionNumFrom_shift (self : PLetter) (ns : List PLetter) :
    ∀ k, repulsionNumFrom self ns k = k + repulsionNum self ns := by
  classical
  induction ns with
  | nil =>
    intro k
    simp [repulsionNumFrom, repulsionNum]
  | cons o os ih =>
    intro k
    have hcons : ∀ m, repulsionNumFrom self (o :: os) m =
        repulsionNumFrom self os
          (if inRepulsionRange self o then m + 1 else m) := fun m => rfl
    rw [show repulsionNum self (o :: os) =
      repulsionNumFrom self (o :: os) 0 from rfl]
    rw [hcons, hcons, ih, ih]
    by_cases hc : inRepulsionRange self o
    · rw [if_pos hc, if_pos hc]
      omega
    · rw [if_neg hc, if_neg hc]
      omega

/-- Starting the attraction-count fold from `k` offsets the result by
`k`. -/
theorem attractionNumFrom_shift (self : PLetter) (ns : List PLetter) :
    ∀ k, attractionNumFrom self ns k = k + attractionNum self ns := by
  classical
  induction ns with
  | nil =>
    intro k
    simp [attractionNumFrom, attractionNum]
  | cons o os ih =>
    intro k
    have hcons : ∀ m, attractionNumFrom self (o :: os) m =
        attractionNumFrom self os
          (if inAttractionRange self o then m + 1 else m) := fun m => rfl
    rw [show attractionNum self (o :: os) =
      attractionNumFrom self (o :: os) 0 from rfl]
    rw [hcons, hcons, ih, ih]
    by_cases hc : inAttractionRange self o
    · rw [if_pos hc, if_pos hc]
      omega
    · rw [if_neg hc, if_neg hc]
      omega

/-- What the force pass does to `acc` when some neighbor is in
repulsion range and none is in the attraction band: it adds the
accumulated repulsion sum DIVIDED by the contribution count (the
source divides `repulsionForce` by `repulsionCount` before
`applyForce`; `mass = 1`). -/
theorem applyNeighborForces_acc (self : PLetter) (ns : List PLetter)
    (rand : ℕ → ℝ) (hd : self.dragging = false)
    (hatt : attractionNum self ns = 0)
    (hrep : 0 < repulsionNum self ns) :
    (applyNeighborForces self ns rand).acc =
      addV self.acc
        ((repulsionSum self ns).1 / (repulsionNum self ns : ℝ),
          (repulsionSum self ns).2 / (repulsionNum self ns : ℝ)) := by
  obtain ⟨h1, h2, h3⟩ := foldl_nfStep_fields self rand ns nfInit
  simp only [applyNeighborForces]
  rw [if_neg (show ¬ self.dragging = true by simp [hd])]
  rw [h1, h2, h3, repulsionSumFrom_shift, repulsionNumFrom_shift,
    attractionNumFrom_shift]
  simp only [nfInit, Nat.zero_add, addV_zero_left]
  rw [if_pos hrep, hatt, if_neg (lt_irrefl 0)]
  simp [applyForceP, addV, MASS]

/-- Shape, direction-sign and magnitude of one repulsion
contribution: it is the positive multiple `repulsionStrength / dSq`
of the outward vector `(dx, dy)` from the neighbor to the particle,
and its Euclidean magnitude is `repulsionStrength / d`. -/
theorem repulsionContrib_spec (self other : PLetter)
    (h : inRepulsionRange self other) :
    repulsionContrib self other =
      (REPULSION_STRENGTH / dSqOf self other * (self.pos.1 - other.pos.1),
        REPULSION_STRENGTH / dSqOf self other * (self.pos.2 - other.pos.2)) ∧
    0 < REPULSION_STRENGTH / dSqOf self other ∧
    magR2 (repulsionContrib self other) =
      REPULSION_STRENGTH / Real.sqrt (dSqOf self other) := by
  have hpos : 0 < dSqOf self other := h.2.1
  have hdpos : 0 < Real.sqrt (dSqOf self other) := Real.sqrt_pos.mpr hpos
  have hdd : Real.sqrt (dSqOf self other) * Real.sqrt (dSqOf self other) =
      dSqOf self other := Real.mul_self_sqrt hpos.le
  have hKpos : (0 : ℝ) < REPULSION_STRENGTH := by
    norm_num [REPULSION_STRENGTH]
  have hform : repulsionContrib self other =
      (REPULSION_STRENGTH / dSqOf self other * (self.pos.1 - other.pos.1),
        REPULSION_STRENGTH / dSqOf self other *
          (self.pos.2 - other.pos.2)) := by
    simp only [repulsionContrib, Prod.mk.injEq]
    refine ⟨?_, ?_⟩ <;>
      · rw [div_mul_div_comm, hdd]
        ring
  refine ⟨hform, div_pos hKpos hpos, ?_⟩
  rw [hform]
  rw [magR2_smul_pair _ _ _ (div_pos hKpos hpos).le]
  rw [show (self.pos.1 - other.pos.1) * (self.pos.1 - other.pos.1) +
      (self.pos.2 - other.pos.2) * (self.pos.2 - other.pos.2) =
      dSqOf self other from rfl]
  rw [eq_div_iff (ne_of_gt hdpos), mul_assoc, hdd]
  exact div_mul_cancel₀ _ (ne_of_gt hpos)

/-- C1: repulsion contributions (amended to the averaging the code
performs).  For a particle that is not being dragged: each in-range
neighbor contributes the vector `(repulsionStrength / dSq) · (dx, dy)`
— directed from the neighbor toward the particle along the outward
normal — of magnitude `repulsionStrength / d`, which is strictly
decreasing in the distance `d`; the loop's accumulated repulsion
force is the SUM of these contributions; but the force actually
applied to the particle's acceleration is that sum DIVIDED by the
number of contributing neighbors (`repulsionForce.div(repulsionCount)`),
not the bare sum (stated here with no neighbor in the attraction band,
which isolates the repulsion term). -/
theorem c1_repulsion_averaged (self : PLetter) (ns : List PLetter)
    (rand : ℕ → ℝ) (hd : self.dragging = false)
    (hatt : attractionNum self ns = 0)
    (hrep : 0 < repulsionNum self ns) :
    (∀ other, inRepulsionRange self other →
      repulsionContrib self other =
        (REPULSION_STRENGTH / dSqOf self other * (self.pos.1 - other.pos.1),
          REPULSION_STRENGTH / dSqOf self other *
            (self.pos.2 - other.pos.2)) ∧
      0 < REPULSION_STRENGTH / dSqOf self other ∧
      magR2 (repulsionContrib self other) =
        REPULSION_STRENGTH / Real.sqrt (dSqOf self other)) ∧
    (∀ o1 o2, inRepulsionRange self o1 → inRepulsionRange self o2 →
      Real.sqrt (dSqOf self o1) < Real.sqrt (dSqOf self o2) →
      magR2 (repulsionContrib self o2) < magR2 (repulsionContrib self o1)) ∧
    (ns.foldl (nfStep self rand) nfInit).repulsionForce =
      repulsionSum self ns ∧
    (applyNeighborForces self ns rand).acc =
      addV self.acc
        ((repulsionSum self ns).1 / (repulsionNum self ns : ℝ),
          (repulsionSum self ns).2 / (repulsionNum self ns : ℝ)) := by
  refine ⟨fun other ho => repulsionContrib_spec self other ho, ?_, ?_, ?_⟩
  · intro o1 o2 h1 h2 hlt
    rw [(repulsionContrib_spec self o1 h1).2.2,
      (repulsionContrib_spec self o2 h2).2.2]
    exact div_lt_div_of_pos_left (by norm_num [REPULSION_STRENGTH])
      (Real.sqrt_pos.mpr h1.2.1) hlt
  · obtain ⟨h1, -, -⟩ := foldl_nfStep_fields self rand ns nfInit
    rw [h1, repulsionSumFrom_shift]
    simp only [nfInit, addV_zero_left]
  · exact applyNeighborForces_acc self ns rand hd hatt hrep

/-- Concrete particle at the origin, at rest. -/
noncomputable def c1Self : PLetter :=
  ⟨0, (0, 0), (0, 0), (0, 0), 0, 0, 0, false, false⟩

/-- Concrete neighbor 10 units east. -/
noncomputable def c1East : PLetter :=
  ⟨1, (10, 0), (0, 0), (0, 0), 0, 0, 0, false, false⟩

/-- Concrete neighbor 10 units north. -/
noncomputable def c1North : PLetter :=
  ⟨2, (0, 10), (0, 0), (0, 0), 0, 0, 0, false, false⟩

/-- The east neighbor is in repulsion range of the origin particle. -/
theorem c1East_inRange : inRepulsionRange c1Self c1East := by
  refine ⟨by norm_num [c1Self, c1East], ?_, ?_⟩ <;>
    norm_num [dSqOf, c1Self, c1East, REPULSION_RADIUS_SQ, REPULSION_RADIUS]

/-- The north neighbor is in repulsion range of the origin particle. -/
theorem c1North_inRange : inRepulsionRange c1Self c1North := by
  refine ⟨by norm_num [c1Self, c1North], ?_, ?_⟩ <;>
    norm_num [dSqOf, c1Self, c1North, REPULSION_RADIUS_SQ, REPULSION_RADIUS]

/-- Square root of one hundred. -/
theorem sqrt_hundred : Real.sqrt (100 : ℝ) = 10 := by
  rw [show (100 : ℝ) = 10 ^ 2 by norm_num,
    Real.sqrt_sq (by norm_num : (0 : ℝ) ≤ 10)]

/-- Contribution of the east neighbor: unit force pointing west. -/
theorem c1_contrib_east : repulsionContrib c1Self c1East = (-1, 0) := by
  have h100 : dSqOf c1Self c1East = 100 := by
    norm_num [dSqOf, c1Self, c1East]
  simp only [repulsionContrib, h100, sqrt_hundred]
  norm_num [c1Self, c1East, REPULSION_STRENGTH, Prod.mk.injEq]

/-- Contribution of the north neighbor: unit force pointing south. -/
theorem c1_contrib_north : repulsionContrib c1Self c1North = (0, -1) := by
  have h100 : dSqOf c1Self c1North = 100 := by
    norm_num [dSqOf, c1Self, c1North]
  simp only [repulsionContrib, h100, sqrt_hundred]
  norm_num [c1Self, c1North, REPULSION_STRENGTH, Prod.mk.injEq]

/-- Sum of the two contributions. -/
theorem c1_pair_sum : repulsionSum c1Self [c1East, c1North] = (-1, -1) := by
  simp only [repulsionSum, repulsionSumFrom, List.foldl_cons, List.foldl_nil]
  rw [if_pos c1East_inRange, if_pos c1North_inRange,
    c1_contrib_east, c1_contrib_north]
  norm_num [addV, Prod.mk.injEq]

/-- Both neighbors count as repulsion contributions. -/
theorem c1_pair_num : repulsionNum c1Self [c1East, c1North] = 2 := by
  simp only [repulsionNum, repulsionNumFrom, List.foldl_cons, List.foldl_nil]
  rw [if_pos c1East_inRange, if_pos c1North_inRange]

/-- Neither neighbor is in the attraction band. -/
theorem c1_pair_att : attractionNum c1Self [c1East, c1North] = 0 := by
  have hE : ¬ inAttractionRange c1Self c1East :=
    fun hc => hc.2.1 ⟨c1East_inRange.2.1, c1East_inRange.2.2⟩
  have hN : ¬ inAttractionRange c1Self c1North :=
    fun hc => hc.2.1 ⟨c1North_inRange.2.1, c1North_inRange.2.2⟩
  simp only [attractionNum, attractionNumFrom, List.foldl_cons,
    List.foldl_nil]
  rw [if_neg hE, if_neg hN]

/-- The force pass applied to the concrete pair: the acceleration
gained is the average of the two unit contributions. -/
theorem c1_pair_acc :
    (applyNeighborForces c1Self [c1East, c1North] (fun _ => 1/2)).acc =
      (-(1/2 : ℝ), -(1/2 : ℝ)) := by
  rw [applyNeighborForces_acc c1Self [c1East, c1North] (fun _ => 1/2) rfl
    c1_pair_att (by rw [c1_pair_num]; norm_num)]
  rw [c1_pair_sum, c1_pair_num]
  norm_num [addV, c1Self, Prod.mk.injEq]

/-- Witness for C1: the amended statement evaluated at the concrete
particle with its two neighbors at distance 10. -/
theorem c1_repulsion_averaged_witness :
    attractionNum c1Self [c1East, c1North] = 0 ∧
    0 < repulsionNum c1Self [c1East, c1North] ∧
    (applyNeighborForces c1Self [c1East, c1North] (fun _ => 1/2)).acc =
      addV c1Self.acc
        ((repulsionSum c1Self [c1East, c1North]).1 /
            (repulsionNum c1Self [c1East, c1North] : ℝ),
          (repulsionSum c1Self [c1East, c1North]).2 /
            (repulsionNum c1Self [c1East, c1North] : ℝ)) := by
  have hatt : attractionNum c1Self [c1East, c1North] = 0 := c1_pair_att
  have hrep : 0 < repulsionNum c1Self [c1East, c1North] := by
    rw [c1_pair_num]
    norm_num
  exact ⟨hatt, hrep, (c1_repulsion_averaged c1Self [c1East, c1North]
    (fun _ => 1/2) rfl hatt hrep).2.2.2⟩

/-- Counterexample for C1 as frozen: with two neighbors each
contributing a unit-magnitude repulsion force, the acceleration the
pass applies is `(-1/2, -1/2)` — the sum `(-1, -1)` divided by the
neighbor count — and differs from the claimed plain sum. -/
theorem c1_sum_counterexample :
    (applyNeighborForces c1Self [c1East, c1North] (fun _ => 1/2)).acc =
      (-(1/2 : ℝ), -(1/2 : ℝ)) ∧
    repulsionSum c1Self [c1East, c1North] = (-1, -1) ∧
    (applyNeighborForces c1Self [c1East, c1North] (fun _ => 1/2)).acc ≠
      addV c1Self.acc (repulsionSum c1Self [c1East, c1North]) := by
  refine ⟨c1_pair_acc, c1_pair_sum, ?_⟩
  rw [c1_pair_acc, c1_pair_sum]
  norm_num [addV, c1Self, Prod.ext_iff]

/-! ## C7: collision torque -/

/-- Squared magnitude of the relative velocity of a pair
(`impactSpeedSq`). -/
noncomputable def relVelSqOf (self other : PLetter) : ℝ :=
  (self.vel.1 - other.vel.1) * (self.vel.1 - other.vel.1) +
    (self.vel.2 - other.vel.2) * (self.vel.2 - other.vel.2)

/-- The collision torque the current sketch applies to a colliding
pair, with the two `Math.random()` draws `r1`, `r2`: spin transfer
from the angular-velocity difference, plus two random spin terms. -/
noncomputable def collisionTorque (self other : PLetter) (r1 r2 : ℝ) : ℝ :=
  let impactSpeed := Real.sqrt (relVelSqOf self other)
  let spinDiff := other.angularVel - self.angularVel
  let transferFactor := impactSpeed * 0.12
  let spinTransfer := spinDiff * transferFactor
  let impactRandomSpin := (r1 - 0.5) * impactSpeed * COLLISION_SPIN_FACTOR * 1.5
  let spinSimilarity := 1.0 / (1.0 + |spinDiff| * 5)
  let similarityBonus :=
    (r2 - 0.5) * impactSpeed * COLLISION_SPIN_FACTOR * spinSimilarity
  spinTransfer + impactRandomSpin + similarityBonus

/-- The collision torque of the legacy `Letter.repel`: the tangential
component of the relative velocity scaled by impact speed and the
spin factor, plus the spin-difference exchange term. -/
noncomputable def repelCollisionTorque (self other : PLetter) : ℝ :=
  let dx := self.pos.1 - other.pos.1
  let dy := self.pos.2 - other.pos.2
  let d := Real.sqrt (dSqOf self other)
  let normalX := dx / d
  let normalY := dy / d
  let relVelX := self.vel.1 - other.vel.1
  let relVelY := self.vel.2 - other.vel.2
  let impactSpeed := Real.sqrt (relVelSqOf self other)
  let tangentX := -normalY
  let tangentY := normalX
  let tangentVel := relVelX * tangentX + relVelY * tangentY
  let collisionTorque := tangentVel * impactSpeed * LEGACY_COLLISION_SPIN_FACTOR
  let spinExchange := (other.angularVel - self.angularVel) * impactSpeed * 0.05
  collisionTorque + spinExchange

/-- The torque formula the specification describes, written from its
words and parametrized by the two factors: (a) the tangential
component of the relative velocity, scaled by the impact speed and
`spinFactor`, plus (b) an exchange term proportional to the
angular-velocity difference and the impact speed. -/
noncomputable def claimedCollisionTorque (self other : PLetter)
    (spinFactor exchangeFactor : ℝ) : ℝ :=
  let dx := self.pos.1 - other.pos.1
  let dy := self.pos.2 - other.pos.2
  let d := Real.sqrt (dSqOf self other)
  let normalX := dx / d
  let normalY := dy / d
  let relVelX := self.vel.1 - other.vel.1
  let relVelY := self.vel.2 - other.vel.2
  let impactSpeed := Real.sqrt (relVelSqOf self other)
  let tangentX := -normalY
  let tangentY := normalX
  let tangentVel := relVelX * tangentX + relVelY * tangentY
  tangentVel * impactSpeed * spinFactor +
    (other.angularVel - self.angularVel) * impactSpeed * exchangeFactor

/-- Above the threshold the loop body adds exactly the current
sketch's collision torque (over the moment of inertia) to the
accumulated angular acceleration. -/
theorem nfStep_torque_applied (self other : PLetter) (st : NFState)
    (rand : ℕ → ℝ) (h : inRepulsionRange self other)
    (himp : COLLISION_SPEED_THRESHOLD * COLLISION_SPEED_THRESHOLD <
      relVelSqOf self other) :
    (nfStep self rand st other).angularAccAdd =
      st.angularAccAdd + collisionTorque self other (rand st.rIdx)
        (rand (st.rIdx + 1)) / MOMENT_OF_INERTIA := by
  simp only [nfStep, if_neg h.1]
  rw [show (self.pos.1 - other.pos.1) * (self.pos.1 - other.pos.1) +
      (self.pos.2 - other.pos.2) * (self.pos.2 - other.pos.2) =
      dSqOf self other from rfl]
  rw [if_pos (show 0 < dSqOf self other ∧
    dSqOf self other < REPULSION_RADIUS_SQ from ⟨h.2.1, h.2.2⟩)]
  rw [show (self.vel.1 - other.vel.1) * (self.vel.1 - other.vel.1) +
      (self.vel.2 - other.vel.2) * (self.vel.2 - other.vel.2) =
      relVelSqOf self other from rfl]
  rw [if_pos himp]
  rfl

/-- At or below the threshold the loop body leaves the accumulated
angular acceleration unchanged (no torque at all). -/
theorem nfStep_torque_skipped (self other : PLetter) (st : NFState)
    (rand : ℕ → ℝ) (h : inRepulsionRange self other)
    (himp : ¬ COLLISION_SPEED_THRESHOLD * COLLISION_SPEED_THRESHOLD <
      relVelSqOf self other) :
    (nfStep self rand st other).angularAccAdd = st.angularAccAdd := by
  simp only [nfStep, if_neg h.1]
  rw [show (self.pos.1 - other.pos.1) * (self.pos.1 - other.pos.1) +
      (self.pos.2 - other.pos.2) * (self.pos.2 - other.pos.2) =
      dSqOf self other from rfl]
  rw [if_pos (show 0 < dSqOf self other ∧
    dSqOf self other < REPULSION_RADIUS_SQ from ⟨h.2.1, h.2.2⟩)]
  rw [show (self.vel.1 - other.vel.1) * (self.vel.1 - other.vel.1) +
      (self.vel.2 - other.vel.2) * (self.vel.2 - other.vel.2) =
      relVelSqOf self other from rfl]
  rw [if_neg himp]

/-- C7: collision torque (amended).  For a repulsion-range pair, the
squared-comparison gate fires exactly when the relative speed exceeds
`collisionSpeedThreshold`; below it no torque is applied; above it
the torque the current sketch applies is `spinDiff·impactSpeed·0.12`
plus two random spin terms — it has NO tangential-velocity component.
The claimed tangential-plus-exchange formula is exactly the torque of
the legacy `Letter.repel` (factors `0.08` and `0.05`), not of the
current force pass. -/
theorem c7_collision_torque (self other : PLetter) (st : NFState)
    (rand : ℕ → ℝ) (h : inRepulsionRange self other) :
    (COLLISION_SPEED_THRESHOLD * COLLISION_SPEED_THRESHOLD <
        relVelSqOf self other ↔
      COLLISION_SPEED_THRESHOLD < Real.sqrt (relVelSqOf self other)) ∧
    (¬ COLLISION_SPEED_THRESHOLD * COLLISION_SPEED_THRESHOLD <
        relVelSqOf self other →
      (nfStep self rand st other).angularAccAdd = st.angularAccAdd) ∧
    (COLLISION_SPEED_THRESHOLD * COLLISION_SPEED_THRESHOLD <
        relVelSqOf self other →
      (nfStep self rand st other).angularAccAdd =
        st.angularAccAdd + collisionTorque self other (rand st.rIdx)
          (rand (st.rIdx + 1)) / MOMENT_OF_INERTIA) ∧
    repelCollisionTorque self other =
      claimedCollisionTorque self other LEGACY_COLLISION_SPIN_FACTOR 0.05 := by
  refine ⟨?_, nfStep_torque_skipped self other st rand h,
    nfStep_torque_applied self other st rand h, rfl⟩
  have hthr : (0 : ℝ) ≤ COLLISION_SPEED_THRESHOLD := by
    norm_num [COLLISION_SPEED_THRESHOLD]
  rw [Real.lt_sqrt hthr, pow_two]

/-- Concrete colliding pair: the particle at the origin moves straight
up at unit speed, the neighbor 10 units east is at rest; both have
zero spin. -/
noncomputable def c7Self : PLetter :=
  ⟨0, (0, 0), (0, 1), (0, 0), 0, 0, 0, false, false⟩

/-- The resting neighbor of the concrete colliding pair. -/
noncomputable def c7Other : PLetter :=
  ⟨1, (10, 0), (0, 0), (0, 0), 0, 0, 0, false, false⟩

/-- Squared relative speed of the concrete pair. -/
theorem c7_relVelSq : relVelSqOf c7Self c7Other = 1 := by
  norm_num [relVelSqOf, c7Self, c7Other]

/-- Squared distance of the concrete pair. -/
theorem c7_dSqval : dSqOf c7Self c7Other = 100 := by
  norm_num [dSqOf, c7Self, c7Other]

/-- The concrete pair is in repulsion range. -/
theorem c7_inRange : inRepulsionRange c7Self c7Other := by
  refine ⟨by norm_num [c7Self, c7Other], ?_, ?_⟩ <;>
    norm_num [dSqOf, c7Self, c7Other, REPULSION_RADIUS_SQ, REPULSION_RADIUS]

/-- The concrete pair is above the collision threshold. -/
theorem c7_above : COLLISION_SPEED_THRESHOLD * COLLISION_SPEED_THRESHOLD <
    relVelSqOf c7Self c7Other := by
  rw [c7_relVelSq]
  norm_num [COLLISION_SPEED_THRESHOLD]

/-- With centered random draws and equal spins, the current sketch's
collision torque is zero for the concrete pair. -/
theorem c7_torque_zero : collisionTorque c7Self c7Other (1/2) (1/2) = 0 := by
  simp only [collisionTorque]
  rw [c7_relVelSq, Real.sqrt_one]
  norm_num [c7Self, c7Other, COLLISION_SPIN_FACTOR]

/-- The claimed tangential-plus-exchange torque for the concrete pair
(legacy factors) is `-0.08`. -/
theorem c7_claimed_eval :
    claimedCollisionTorque c7Self c7Other LEGACY_COLLISION_SPIN_FACTOR
      (0.05 : ℝ) = -(2/25 : ℝ) := by
  simp only [claimedCollisionTorque]
  rw [c7_relVelSq, Real.sqrt_one, c7_dSqval, sqrt_hundred]
  norm_num [c7Self, c7Other, LEGACY_COLLISION_SPIN_FACTOR]

/-- Witness for C7: the amended statement applied to the concrete
colliding pair. -/
theorem c7_collision_torque_witness :
    inRepulsionRange c7Self c7Other ∧
    COLLISION_SPEED_THRESHOLD * COLLISION_SPEED_THRESHOLD <
      relVelSqOf c7Self c7Other ∧
    (nfStep c7Self (fun _ => 1/2) nfInit c7Other).angularAccAdd =
      0 + collisionTorque c7Self c7Other (1/2) (1/2) / MOMENT_OF_INERTIA :=
  ⟨c7_inRange, c7_above,
    (c7_collision_torque c7Self c7Other nfInit (fun _ => 1/2)
      c7_inRange).2.2.1 c7_above⟩

/-- Counterexample for C7 as frozen: for the concrete colliding pair
(purely tangential relative motion, equal spins, centered random
draws) the current force pass applies zero torque, while the claimed
tangential-plus-exchange formula gives `-0.08 ≠ 0`. -/
theorem c7_tangential_counterexample :
    COLLISION_SPEED_THRESHOLD * COLLISION_SPEED_THRESHOLD <
      relVelSqOf c7Self c7Other ∧
    (nfStep c7Self (fun _ => 1/2) nfInit c7Other).angularAccAdd = 0 ∧
    claimedCollisionTorque c7Self c7Other LEGACY_COLLISION_SPIN_FACTOR
      (0.05 : ℝ) = -(2/25 : ℝ) ∧
    (nfStep c7Self (fun _ => 1/2) nfInit c7Other).angularAccAdd *
        MOMENT_OF_INERTIA ≠
      claimedCollisionTorque c7Self c7Other LEGACY_COLLISION_SPIN_FACTOR
        (0.05 : ℝ) := by
  have hz : (nfStep c7Self (fun _ => 1/2) nfInit c7Other).angularAccAdd = 0 := by
    rw [nfStep_torque_applied c7Self c7Other nfInit (fun _ => 1/2)
      c7_inRange c7_above]
    rw [c7_torque_zero]
    norm_num [nfInit]
  refine ⟨c7_above, hz, c7_claimed_eval, ?_⟩
  rw [hz, c7_claimed_eval]
  norm_num

end WordBag
